import Mathlib

/-!
Verification development for the snowfs tree engine (`src/treedir.ts`):
the tree entity model (`TreeEntry`, `TreeFile`, `TreeDir`), the
clone/merge engine, the change detector (`isFileModified`), and the
navigation utilities (`find`, `walk`, `remove`, `getAllTreeFiles`).

Modelling conventions:
- TypeScript numbers holding sizes are modelled as `Nat` (the spec types
  them `u64`); millisecond timestamps (`ctimeMs`, `mtimeMs`) are modelled
  as `Rat`, which supports the fractional-millisecond comparisons the
  change detector performs.
- The sha256 digest is treated as an opaque deterministic primitive, as
  the spec prescribes; `digestStr` is an injective stand-in producing a
  tagged concatenation of the hashed child-hash strings (in the real
  system the concatenated inputs are fixed-width hex digests, so the
  concatenation determines the list).
- In-place mutation is modelled by explicit value passing: every function
  that mutates a tree returns the updated tree value; `TreeDir.merge`
  additionally exposes the post-call state of its `source` argument
  (`TreeDir.mergeSourceAfter`), because `privateMerge` writes the
  recomputed caches into `source`'s descendants in place.
- Recursion over the tree (a nested inductive) uses either well-founded
  recursion on `sizeOf` or, for `privateMerge` (whose termination measure
  is semantic), explicit fuel; `TreeEntry.size` bounds the recursion
  depth and is used as the fuel supplied by `TreeDir.merge`.
-/

/-- Subset of fs.Stats carried by every tree entry (`StatsSubset` in
`common.ts`, used by `treedir.ts` as `{size, ctimeMs, mtimeMs}`). -/
structure StatsSubset where
  size : Nat
  ctimeMs : Rat
  mtimeMs : Rat
deriving DecidableEq

/-- Opaque model of the hex sha256 digest over the sequence of
`hash.update(..)` calls made by `calculateSizeAndHash`: the update inputs
are the children's hash strings in listing order. Injective stand-in for
the cryptographic digest (collision-freedom idealization). -/
def digestStr (l : List String) : String :=
  "sha256(" ++ String.intercalate "," l ++ ")"

/-- The entry model of `treedir.ts`: `TreeFile` (leaf, with `ext`) and
`TreeDir` (interior, with ordered `children`). The `parent`
back-reference is not part of the value (it is derivable: the parent of a
node is the directory holding it); where code branches on parent
nullability (`toString`) the model takes an explicit flag. -/
inductive TreeEntry : Type where
  | file (hash : String) (path : String) (stats : StatsSubset) (ext : String)
  | dir (hash : String) (path : String) (stats : StatsSubset) (children : List TreeEntry)

/-- Field accessor: `entry.hash`. -/
def TreeEntry.hash : TreeEntry → String
  | .file h _ _ _ => h
  | .dir h _ _ _ => h

/-- Field accessor: `entry.path`. -/
def TreeEntry.path : TreeEntry → String
  | .file _ p _ _ => p
  | .dir _ p _ _ => p

/-- Field accessor: `entry.stats`. -/
def TreeEntry.stats : TreeEntry → StatsSubset
  | .file _ _ st _ => st
  | .dir _ _ st _ => st

/-- `TreeDir`'s `children` field (`[]` for a file). -/
def TreeEntry.children : TreeEntry → List TreeEntry
  | .file _ _ _ _ => []
  | .dir _ _ _ cs => cs

/-- `TreeEntry.isDirectory()`: `this instanceof TreeDir`. -/
def TreeEntry.isDirectory : TreeEntry → Bool
  | .file _ _ _ _ => false
  | .dir _ _ _ _ => true

/-- `TreeEntry.isFile()`: `this instanceof TreeFile`. -/
def TreeEntry.isFile : TreeEntry → Bool
  | .file _ _ _ _ => true
  | .dir _ _ _ _ => false

@[simp] theorem TreeEntry.hash_file (h p : String) (st : StatsSubset) (e : String) :
    TreeEntry.hash (.file h p st e) = h := rfl

@[simp] theorem TreeEntry.hash_dir (h p : String) (st : StatsSubset) (cs : List TreeEntry) :
    TreeEntry.hash (.dir h p st cs) = h := rfl

@[simp] theorem TreeEntry.path_file (h p : String) (st : StatsSubset) (e : String) :
    TreeEntry.path (.file h p st e) = p := rfl

@[simp] theorem TreeEntry.path_dir (h p : String) (st : StatsSubset) (cs : List TreeEntry) :
    TreeEntry.path (.dir h p st cs) = p := rfl

@[simp] theorem TreeEntry.stats_file (h p : String) (st : StatsSubset) (e : String) :
    TreeEntry.stats (.file h p st e) = st := rfl

@[simp] theorem TreeEntry.stats_dir (h p : String) (st : StatsSubset) (cs : List TreeEntry) :
    TreeEntry.stats (.dir h p st cs) = st := rfl

@[simp] theorem TreeEntry.children_file (h p : String) (st : StatsSubset) (e : String) :
    TreeEntry.children (.file h p st e) = [] := rfl

@[simp] theorem TreeEntry.children_dir (h p : String) (st : StatsSubset) (cs : List TreeEntry) :
    TreeEntry.children (.dir h p st cs) = cs := rfl

/-- Structural induction principle for the nested inductive: prove a
property of every entry from the file case and the dir case with the
hypothesis available for every child. -/
theorem TreeEntry.induction_on (P : TreeEntry → Prop)
    (hfile : ∀ h p st e, P (TreeEntry.file h p st e))
    (hdir : ∀ h p st cs, (∀ c, c ∈ cs → P c) → P (TreeEntry.dir h p st cs)) :
    ∀ e, P e := by
  intro e
  refine @TreeEntry.rec P (fun cs => ∀ c, c ∈ cs → P c) hfile hdir ?_ ?_ e
  · intro c hc
    exact absurd hc (List.not_mem_nil c)
  · intro a as ha has c hc
    rcases List.mem_cons.mp hc with h1 | h2
    · exact h1 ▸ ha
    · exact has c h2

/-- Node count of a tree; used as recursion fuel by `TreeDir.merge`
(it strictly dominates the tree depth, which bounds the recursion of
`privateMerge`). -/
def TreeEntry.size : TreeEntry → Nat
  | .file _ _ _ _ => 1
  | .dir _ _ _ cs => 1 + (cs.attach.map (fun c => TreeEntry.size c.1)).sum
decreasing_by
  have h1 := List.sizeOf_lt_of_mem c.2
  simp only [TreeEntry.dir.sizeOf_spec]
  omega

@[simp] theorem TreeEntry.size_file (h p : String) (st : StatsSubset) (e : String) :
    TreeEntry.size (.file h p st e) = 1 := by
  rw [TreeEntry.size]

@[simp] theorem TreeEntry.size_dir (h p : String) (st : StatsSubset) (cs : List TreeEntry) :
    TreeEntry.size (.dir h p st cs) = 1 + (cs.map TreeEntry.size).sum := by
  rw [TreeEntry.size]
  congr 1
  rw [List.attach_map_coe]

theorem TreeEntry.size_pos (e : TreeEntry) : 1 ≤ TreeEntry.size e := by
  cases e with
  | file h p st e => simp
  | dir h p st cs => simp

theorem TreeEntry.size_lt_of_mem_children (h p : String) (st : StatsSubset)
    (cs : List TreeEntry) (c : TreeEntry) (hc : c ∈ cs) :
    TreeEntry.size c < TreeEntry.size (.dir h p st cs) := by
  have h1 : TreeEntry.size c ≤ (cs.map TreeEntry.size).sum :=
    List.le_sum_of_mem (List.mem_map_of_mem TreeEntry.size hc)
  simp only [TreeEntry.size_dir]
  omega

/-- JavaScript `Map.set` on an insertion-ordered association list: an
existing key keeps its position and gets the new value; a new key is
appended at the end. Models the `newItems` map of `privateMerge` and the
map built by `getAllTreeFiles`. -/
def setAssoc : List (String × TreeEntry) → String → TreeEntry → List (String × TreeEntry)
  | [], k, v => [(k, v)]
  | (k0, v0) :: m, k, v =>
    if k0 = k then (k, v) :: m else (k0, v0) :: setAssoc m k v

/-- JavaScript `Map.get`: the value stored under a key, if any. -/
def lookupA (m : List (String × TreeEntry)) (k : String) : Option TreeEntry :=
  (m.find? (fun kv => kv.1 = k)).map Prod.snd

/-- First entry of a children list with the given `path` (how a path
collision between two sibling lists is detected). -/
def childByPath (cs : List TreeEntry) (p : String) : Option TreeEntry :=
  cs.find? (fun c => TreeEntry.path c = p)

/-- Sum of the children's `stats.size` (the `size += r.stats.size` loop of
`calculateSizeAndHash`). -/
def sumSizes (items : List TreeEntry) : Nat :=
  items.foldl (fun a c => a + (TreeEntry.stats c).size) 0

/-- `calculateSizeAndHash(items)`: the aggregate size and the digest of the
children's hash strings in listing order. -/
def calculateSizeAndHash (items : List TreeEntry) : Nat × String :=
  (sumSizes items, digestStr (items.map TreeEntry.hash))

/-- `generateSizeAndCaches(item)`: recomputes a directory's own
`stats.size` and `hash` from its current children (one level, not
recursive); leaves a file unchanged. The source returns the `[size, hash]`
pair and mutates `item` in place; the model returns the updated item. -/
def generateSizeAndCaches (item : TreeEntry) : TreeEntry :=
  match item with
  | .file h p st e => .file h p st e
  | .dir _ p st cs =>
    .dir (calculateSizeAndHash cs).2 p { st with size := (calculateSizeAndHash cs).1 } cs

/-- `clone()`: a `TreeFile` clone copies hash, path, stats and ext; a
`TreeDir` clone is built with `new TreeDir(this.path, {...this.stats},
parent)` — whose constructor initializes `hash` to `''` — and `clone`
never copies `this.hash` into the new directory, so a cloned directory's
hash is the empty string; children are cloned recursively. -/
def TreeEntry.clone : TreeEntry → TreeEntry
  | .file h p st e => .file h p st e
  | .dir _ p st cs => .dir "" p st (cs.attach.map (fun c => TreeEntry.clone c.1))
decreasing_by
  have h1 := List.sizeOf_lt_of_mem c.2
  simp only [TreeEntry.dir.sizeOf_spec]
  omega

@[simp] theorem TreeEntry.clone_file (h p : String) (st : StatsSubset) (e : String) :
    TreeEntry.clone (.file h p st e) = .file h p st e := by
  rw [TreeEntry.clone]

@[simp] theorem TreeEntry.clone_dir (h p : String) (st : StatsSubset) (cs : List TreeEntry) :
    TreeEntry.clone (.dir h p st cs) = .dir "" p st (cs.map TreeEntry.clone) := by
  rw [TreeEntry.clone]
  congr 1
  rw [List.attach_map_coe]

/-- One pass of `privateMerge`'s first two loops: recompute each child's
caches and insert it into the map keyed by its path (source children
first, then target children, so target overwrites on collisions). -/
def insertChildren (m : List (String × TreeEntry)) (cs : List TreeEntry) :
    List (String × TreeEntry) :=
  cs.foldl (fun m c => setAssoc m (TreeEntry.path c) c) m

/-- The inner `for (const targetItem of target.children)` loop of
`privateMerge` for one `sourceItem` `s`: scan the (live, already
cache-recomputed) target children; on a path match, recursively merge and
store the result in the map; the source item and the matched target slot
are threaded because the recursion mutates them in place. Returns the
final source item, target children list and map. -/
def privateMergeInner (pm : TreeEntry → TreeEntry → TreeEntry × TreeEntry) (s : TreeEntry) :
    List TreeEntry → List (String × TreeEntry) →
    TreeEntry × List TreeEntry × List (String × TreeEntry)
  | [], m => (s, [], m)
  | t :: ts, m =>
    if TreeEntry.path t = TreeEntry.path s then
      let pr := pm s t
      let rest := privateMergeInner pm pr.1 ts (setAssoc m (TreeEntry.path pr.2) pr.2)
      (rest.1, pr.2 :: rest.2.1, rest.2.2)
    else
      let rest := privateMergeInner pm s ts m
      (rest.1, t :: rest.2.1, rest.2.2)

/-- The outer `for (const sourceItem of source.children)` loop of
`privateMerge`: process each source child against the target children. -/
def privateMergeOuter (pm : TreeEntry → TreeEntry → TreeEntry × TreeEntry) :
    List TreeEntry → List TreeEntry → List (String × TreeEntry) →
    List TreeEntry × List TreeEntry × List (String × TreeEntry)
  | [], ts, m => ([], ts, m)
  | s :: ss, ts, m =>
    let one := privateMergeInner pm s ts m
    let rest := privateMergeOuter pm ss one.2.1 one.2.2
    (one.1 :: rest.1, rest.2.1, rest.2.2)

/-- `privateMerge(source, target)` with explicit fuel (the recursion
descends one tree level per call, so any fuel exceeding the source's
depth gives the function's fixpoint; `TreeDir.merge` supplies
`TreeEntry.size source`). Returns `(source, target)` as left by the call:
the first component is the state of `source` (whose directory children
had their caches recomputed in place), the second is the returned merged
tree. When either side is not a directory the call returns `target`
unchanged and mutates nothing. -/
def privateMerge : Nat → TreeEntry → TreeEntry → TreeEntry × TreeEntry
  | 0, s, t => (s, t)
  | n + 1, s, t =>
    match s, t with
    | .dir sh sp sst scs, .dir _ tp tst tcs =>
      let scs1 := scs.map generateSizeAndCaches
      let tcs1 := tcs.map generateSizeAndCaches
      let m2 := insertChildren (insertChildren [] scs1) tcs1
      let pc := privateMergeOuter (privateMerge n) scs1 tcs1 m2
      let newCh := pc.2.2.map Prod.snd
      (.dir sh sp sst pc.1,
       .dir (calculateSizeAndHash newCh).2 tp
         { tst with size := (calculateSizeAndHash newCh).1 } newCh)
    | _, _ => (s, t)

/-- `TreeDir.merge(source, target)`: `privateMerge(source, target.clone())`,
returning the merged tree. -/
def TreeDir.merge (source target : TreeEntry) : TreeEntry :=
  (privateMerge (TreeEntry.size source) source (TreeEntry.clone target)).2

/-- The state of `source` after `TreeDir.merge(source, target)` returns:
`privateMerge` recomputes the caches of `source`'s directory descendants
in place (only `target` is cloned before merging). -/
def TreeDir.mergeSourceAfter (source target : TreeEntry) : TreeEntry :=
  (privateMerge (TreeEntry.size source) source (TreeEntry.clone target)).1

/-- `TreeDir.walk(tree, cb)` as the list of entries the callback visits,
in visiting order: each child in listing order, a directory immediately
followed by its own walk (depth-first pre-order; the root itself is never
visited). The callback's index/length arguments are positional data the
claims do not consume. -/
def TreeDir.walkList : TreeEntry → List TreeEntry
  | .file _ _ _ _ => []
  | .dir _ _ _ cs =>
    (cs.attach.map (fun c => c.1 :: TreeDir.walkList c.1)).flatten
decreasing_by
  have h1 := List.sizeOf_lt_of_mem c.2
  simp only [TreeEntry.dir.sizeOf_spec]
  omega

@[simp] theorem TreeDir.walkList_file (h p : String) (st : StatsSubset) (e : String) :
    TreeDir.walkList (.file h p st e) = [] := by
  rw [TreeDir.walkList]

@[simp] theorem TreeDir.walkList_dir (h p : String) (st : StatsSubset) (cs : List TreeEntry) :
    TreeDir.walkList (.dir h p st cs) =
      (cs.map (fun c => c :: TreeDir.walkList c)).flatten := by
  rw [TreeDir.walkList]
  congr 1
  exact List.attach_map_coe cs (fun c => c :: TreeDir.walkList c)

/-- `TreeDir.find(relativePath)`: return `this` if the path equals the
root's own path, else walk the whole subtree with a callback that
overwrites its result variable on every path match (so the last visited
match is returned; there is no early exit — see the `TODO` in the
source). -/
def TreeDir.find (d : TreeEntry) (relativePath : String) : Option TreeEntry :=
  if relativePath = TreeEntry.path d then some d
  else
    (TreeDir.walkList d).foldl
      (fun acc entry => if TreeEntry.path entry = relativePath then some entry else acc) none

/-- `TreeDir.remove(tree, cb)`: filter out of every `children` list the
entries the callback selects, recursing into every surviving directory.
The source callback also receives index and array; the claims consume
only the entry. No directory hash or size is recomputed. -/
def TreeDir.remove (cb : TreeEntry → Bool) : TreeEntry → TreeEntry
  | .file h p st e => .file h p st e
  | .dir h p st cs =>
    .dir h p st (((cs.filter (fun c => !cb c)).attach.map
      (fun c => TreeDir.remove cb c.1)))
decreasing_by
  have h0 := List.mem_of_mem_filter c.2
  have h1 := List.sizeOf_lt_of_mem h0
  simp only [TreeEntry.dir.sizeOf_spec]
  omega

@[simp] theorem TreeDir.remove_file (cb : TreeEntry → Bool) (h p : String)
    (st : StatsSubset) (e : String) :
    TreeDir.remove cb (.file h p st e) = .file h p st e := by
  rw [TreeDir.remove]

@[simp] theorem TreeDir.remove_dir (cb : TreeEntry → Bool) (h p : String)
    (st : StatsSubset) (cs : List TreeEntry) :
    TreeDir.remove cb (.dir h p st cs) =
      .dir h p st ((cs.filter (fun c => !cb c)).map (TreeDir.remove cb)) := by
  rw [TreeDir.remove]
  congr 1
  rw [List.attach_map_coe]

/-- The recursive `visit` closure of `getAllTreeFiles` in the
`entireHierarchy` case: a file is stored under its path; a directory is
stored under its path only when `includeDirs` is set, then its children
are visited in order. -/
def gatfVisit (includeDirs : Bool) : List (String × TreeEntry) → TreeEntry →
    List (String × TreeEntry)
  | m, .file h p st e => setAssoc m p (.file h p st e)
  | m, .dir h p st cs =>
    let m1 := if includeDirs then setAssoc m p (.dir h p st cs) else m
    cs.attach.foldl (fun m c => gatfVisit includeDirs m c.1) m1
decreasing_by
  have h1 := List.sizeOf_lt_of_mem c.2
  simp only [TreeEntry.dir.sizeOf_spec]
  omega

theorem List.foldl_attach_eq {α β : Type} (l : List α) (g : β → α → β) (b : β) :
    l.attach.foldl (fun m c => g m c.1) b = l.foldl g b := by
  induction l generalizing b with
  | nil => rfl
  | cons x xs ih =>
    rw [List.attach_cons]
    simp only [List.foldl_cons, List.foldl_map]
    exact ih (g b x)

@[simp] theorem gatfVisit_file (includeDirs : Bool) (m : List (String × TreeEntry))
    (h p : String) (st : StatsSubset) (e : String) :
    gatfVisit includeDirs m (.file h p st e) = setAssoc m p (.file h p st e) := by
  rw [gatfVisit]

@[simp] theorem gatfVisit_dir (includeDirs : Bool) (m : List (String × TreeEntry))
    (h p : String) (st : StatsSubset) (cs : List TreeEntry) :
    gatfVisit includeDirs m (.dir h p st cs) =
      cs.foldl (gatfVisit includeDirs)
        (if includeDirs then setAssoc m p (.dir h p st cs) else m) := by
  rw [gatfVisit]
  exact List.foldl_attach_eq cs (gatfVisit includeDirs) _

/-- `TreeDir.getAllTreeFiles({entireHierarchy, includeDirs})`: in the
hierarchy mode, visit the children recursively (the root itself is never
stored); in the shallow mode, store only the direct children passing the
`o instanceof TreeFile || opt.entireHierarchy` test (which in this branch
reduces to the file test). -/
def TreeDir.getAllTreeFiles (entireHierarchy includeDirs : Bool) (d : TreeEntry) :
    List (String × TreeEntry) :=
  if entireHierarchy then
    (TreeEntry.children d).foldl (gatfVisit includeDirs) []
  else
    (TreeEntry.children d).foldl
      (fun m o => if TreeEntry.isFile o || entireHierarchy
        then setAssoc m (TreeEntry.path o) o else m) []

/-- `TreeFile.toString()` / `TreeDir.toString()` combined (they share the
guard and differ in payload): throwing is modelled as `none`. `hasParent`
is the nullability of the entry's own `parent` reference; the children a
directory serializes were built by this module with their parent set to
that directory, hence are serialized with `hasParent = true`. The guards
are `!this.parent && this.path` ("parent has no path") and
`this.parent && !this.path` ("item must have path"); only then is the
JSON-like payload emitted. -/
def TreeEntry.toString (hasParent : Bool) : TreeEntry → Option String
  | .file h p st e =>
    if hasParent = false ∧ p ≠ "" then none
    else if hasParent = true ∧ p = "" then none
    else some ("\x7b\"hash\": \"" ++ h ++ "\", \"path\": \"" ++ p ++ "\", \"ext\": \"" ++ e
      ++ "\", \"stats\": \x7b\"size\": " ++ Nat.repr st.size ++ "\x7d\x7d")
  | .dir h p st cs =>
    if hasParent = false ∧ p ≠ "" then none
    else if hasParent = true ∧ p = "" then none
    else
      match cs.attach.mapM (fun c => TreeEntry.toString true c.1) with
      | none => none
      | some children =>
        some ("\x7b\"hash\": \"" ++ h ++ "\", \"path\": \"" ++ p ++ "\", \"stats\": \x7b\"size\": "
          ++ Nat.repr st.size ++ "\x7d, \"children\": [" ++ String.intercalate "," children ++ "]\x7d")
decreasing_by
  have h1 := List.sizeOf_lt_of_mem c.2
  simp only [TreeEntry.dir.sizeOf_spec]
  omega

/-- `DETECTIONMODE.ONLY_SIZE_AND_MKTIME = 1`. -/
def ONLY_SIZE_AND_MKTIME : Int := 1

/-- `DETECTIONMODE.SIZE_AND_HASH_FOR_SMALL_FILES = 2`. -/
def SIZE_AND_HASH_FOR_SMALL_FILES : Int := 2

/-- `DETECTIONMODE.SIZE_AND_HASH_FOR_ALL_FILES = 3`. -/
def SIZE_AND_HASH_FOR_ALL_FILES : Int := 3

/-- Modelled from the spec: the `MB20` constant imported from
`common.ts` (not under `src/`); the spec fixes it as the 20 MiB
threshold, `20 × 1024 × 1024` bytes. -/
def MB20 : Nat := 20 * 1024 * 1024

/-- Outcome of `isFileModified`: the returned `modified` flag, plus
whether the content re-hash path (`getPartHash`) was taken. The source
also returns the original file and the fresh stats unchanged. -/
structure ModCheck where
  modified : Bool
  contentRead : Bool
deriving DecidableEq

/-- `TreeFile.isFileModified(repo, detectionMode)`: the decision logic
after the live `stat` resolved. `f` is the captured file entry (its
`stats` and `hash` are read), `newStats` the live stat result, and
`partHash` the digest `getPartHash` would produce for the live content —
an external collaborator (spec §6) modelled as an input; `contentRead`
records whether it is consumed. The detection mode is an `Int` because
the switch has a `default` arm for unrecognized values. -/
def TreeFile.isFileModified (f : TreeEntry) (newStats : StatsSubset)
    (detectionMode : Int) (partHash : String) : ModCheck :=
  if (TreeEntry.stats f).size ≠ newStats.size then
    { modified := true, contentRead := false }
  else if |(TreeEntry.stats f).mtimeMs - newStats.mtimeMs| ≥ 1 then
    if detectionMode = ONLY_SIZE_AND_MKTIME then
      { modified := true, contentRead := false }
    else if detectionMode = SIZE_AND_HASH_FOR_SMALL_FILES ∧ (TreeEntry.stats f).size ≥ MB20 then
      { modified := true, contentRead := false }
    else
      { modified := TreeEntry.hash f ≠ partHash, contentRead := true }
  else
    { modified := false, contentRead := false }

/-- `clone` expressed field-by-field: the tree with every directory hash
reset to the empty string and everything else unchanged. -/
def eraseDirHashes : TreeEntry → TreeEntry
  | .file h p st e => .file h p st e
  | .dir _ p st cs => .dir "" p st (cs.attach.map (fun c => eraseDirHashes c.1))
decreasing_by
  have h1 := List.sizeOf_lt_of_mem c.2
  simp only [TreeEntry.dir.sizeOf_spec]
  omega

@[simp] theorem eraseDirHashes_file (h p : String) (st : StatsSubset) (e : String) :
    eraseDirHashes (.file h p st e) = .file h p st e := by
  rw [eraseDirHashes]

@[simp] theorem eraseDirHashes_dir (h p : String) (st : StatsSubset) (cs : List TreeEntry) :
    eraseDirHashes (.dir h p st cs) = .dir "" p st (cs.map eraseDirHashes) := by
  rw [eraseDirHashes]
  congr 1
  exact List.attach_map_coe cs eraseDirHashes

/-- Two trees that agree on everything except the derived directory
caches: same constructors and paths at every node, identical file nodes,
identical directory `ctimeMs`/`mtimeMs`; directory `hash` and
`stats.size` (the caches `privateMerge` recomputes in place) are
unconstrained. -/
inductive SameShape : TreeEntry → TreeEntry → Prop where
  | file (h p : String) (st : StatsSubset) (e : String) :
      SameShape (.file h p st e) (.file h p st e)
  | dir (h h' p : String) (st st' : StatsSubset) (cs cs' : List TreeEntry) :
      st.ctimeMs = st'.ctimeMs → st.mtimeMs = st'.mtimeMs →
      List.Forall₂ SameShape cs cs' → SameShape (.dir h p st cs) (.dir h' p st' cs')

/-- A sealed tree: at every directory the sibling paths are distinct and
the derived `hash`/`stats.size` caches agree with the current children
(the §3 invariant of the spec). -/
inductive WellFormed : TreeEntry → Prop where
  | file (h p : String) (st : StatsSubset) (e : String) :
      WellFormed (.file h p st e)
  | dir (h p : String) (st : StatsSubset) (cs : List TreeEntry) :
      (cs.map TreeEntry.path).Nodup →
      h = digestStr (cs.map TreeEntry.hash) →
      st.size = sumSizes cs →
      (∀ c, c ∈ cs → WellFormed c) →
      WellFormed (.dir h p st cs)

theorem SameShape.refl (e : TreeEntry) : SameShape e e := by
  induction e using TreeEntry.induction_on with
  | hfile h p st e => exact SameShape.file h p st e
  | hdir h p st cs ih =>
    exact SameShape.dir h h p st st cs cs rfl rfl (List.forall₂_same.mpr ih)

theorem SameShape.path_eq {a b : TreeEntry} (hs : SameShape a b) :
    TreeEntry.path a = TreeEntry.path b := by
  cases hs with
  | file h p st e => rfl
  | dir h h' p st st' cs cs' hc hm hf => rfl

theorem forall2_sameShape_trans : ∀ (cs cs' cs'' : List TreeEntry),
    (∀ x, x ∈ cs → ∀ b c, SameShape x b → SameShape b c → SameShape x c) →
    List.Forall₂ SameShape cs cs' → List.Forall₂ SameShape cs' cs'' →
    List.Forall₂ SameShape cs cs'' := by
  intro cs
  induction cs with
  | nil =>
    intro cs' cs'' ih hf hf'
    cases hf
    cases hf'
    exact List.Forall₂.nil
  | cons x xs ihx =>
    intro cs' cs'' ih hf hf'
    cases hf with
    | cons hab hrest =>
      cases hf' with
      | cons hbc hrest' =>
        refine List.Forall₂.cons (ih x (List.mem_cons_self x xs) _ _ hab hbc) ?_
        exact ihx _ _ (fun y hy => ih y (List.mem_cons_of_mem x hy)) hrest hrest'

theorem SameShape.trans {a b c : TreeEntry} (h1 : SameShape a b) (h2 : SameShape b c) :
    SameShape a c := by
  induction a using TreeEntry.induction_on generalizing b c with
  | hfile h p st e =>
    cases h1 with
    | file => cases h2 with
      | file => exact SameShape.file h p st e
  | hdir h p st cs ih =>
    cases h1 with
    | dir _ h' _ _ st' _ cs' hc hm hf =>
      cases h2 with
      | dir _ h'' _ _ st'' _ cs'' hc' hm' hf' =>
        refine SameShape.dir h h'' _ st st'' cs cs'' (hc.trans hc') (hm.trans hm') ?_
        exact forall2_sameShape_trans cs cs' cs'' (fun x hx b c => ih x hx) hf hf'

theorem forall2_sameShape_symm : ∀ (cs cs' : List TreeEntry),
    (∀ x, x ∈ cs → ∀ b, SameShape x b → SameShape b x) →
    List.Forall₂ SameShape cs cs' → List.Forall₂ SameShape cs' cs := by
  intro cs
  induction cs with
  | nil =>
    intro cs' ih hf
    cases hf
    exact List.Forall₂.nil
  | cons x xs ihx =>
    intro cs' ih hf
    cases hf with
    | cons hab hrest =>
      refine List.Forall₂.cons (ih x (List.mem_cons_self x xs) _ hab) ?_
      exact ihx _ (fun y hy => ih y (List.mem_cons_of_mem x hy)) hrest

theorem SameShape.symm {a b : TreeEntry} (h1 : SameShape a b) : SameShape b a := by
  induction a using TreeEntry.induction_on generalizing b with
  | hfile h p st e =>
    cases h1 with
    | file => exact SameShape.file h p st e
  | hdir h p st cs ih =>
    cases h1 with
    | dir _ h' _ _ st' _ cs' hc hm hf =>
      refine SameShape.dir h' h _ st' st cs' cs hc.symm hm.symm ?_
      exact forall2_sameShape_symm cs cs' (fun x hx b => ih x hx) hf

theorem SameShape.gsac_left {a b : TreeEntry} (h1 : SameShape a b) :
    SameShape (generateSizeAndCaches a) b := by
  cases h1 with
  | file h p st e => exact SameShape.file h p st e
  | dir h h' p st st' cs cs' hc hm hf =>
    exact SameShape.dir _ h' p _ st' cs cs' hc hm hf

theorem SameShape.gsac_right {a b : TreeEntry} (h1 : SameShape a b) :
    SameShape a (generateSizeAndCaches b) := by
  cases h1 with
  | file h p st e => exact SameShape.file h p st e
  | dir h h' p st st' cs cs' hc hm hf =>
    exact SameShape.dir h _ p st _ cs cs' hc hm hf

theorem SameShape.clone (e : TreeEntry) : SameShape (TreeEntry.clone e) e := by
  induction e using TreeEntry.induction_on with
  | hfile h p st e =>
    rw [TreeEntry.clone_file]
    exact SameShape.file h p st e
  | hdir h p st cs ih =>
    rw [TreeEntry.clone_dir]
    refine SameShape.dir "" h p st st (cs.map TreeEntry.clone) cs rfl rfl ?_
    rw [List.forall₂_map_left_iff]
    exact List.forall₂_same.mpr ih

theorem path_gsac (e : TreeEntry) :
    TreeEntry.path (generateSizeAndCaches e) = TreeEntry.path e := by
  cases e with
  | file h p st e => rfl
  | dir h p st cs => rfl

theorem privateMerge_fst_path (n : Nat) (s t : TreeEntry) :
    TreeEntry.path (privateMerge n s t).1 = TreeEntry.path s := by
  cases n with
  | zero => rfl
  | succ n =>
    cases s with
    | file h p st e => cases t <;> rfl
    | dir h p st cs => cases t <;> rfl

theorem privateMerge_snd_path (n : Nat) (s t : TreeEntry) :
    TreeEntry.path (privateMerge n s t).2 = TreeEntry.path t := by
  cases n with
  | zero => rfl
  | succ n =>
    cases s with
    | file h p st e => cases t <;> rfl
    | dir h p st cs => cases t <;> rfl

theorem privateMergeInner_fst_shape
    (pm : TreeEntry → TreeEntry → TreeEntry × TreeEntry)
    (hpm : ∀ s t, SameShape (pm s t).1 s) :
    ∀ (tL : List TreeEntry) (m : List (String × TreeEntry)) (s : TreeEntry),
    SameShape (privateMergeInner pm s tL m).1 s := by
  intro tL
  induction tL with
  | nil =>
    intro m s
    exact SameShape.refl s
  | cons t ts ih =>
    intro m s
    rw [privateMergeInner]
    by_cases hp : TreeEntry.path t = TreeEntry.path s
    · simp only [hp, if_true]
      exact SameShape.trans (ih _ _) (hpm s t)
    · simp only [hp, if_false]
      exact ih _ _

theorem privateMergeOuter_fst_shape
    (pm : TreeEntry → TreeEntry → TreeEntry × TreeEntry)
    (hpm : ∀ s t, SameShape (pm s t).1 s) :
    ∀ (sL tL : List TreeEntry) (m : List (String × TreeEntry)),
    List.Forall₂ SameShape (privateMergeOuter pm sL tL m).1 sL := by
  intro sL
  induction sL with
  | nil =>
    intro tL m
    exact List.Forall₂.nil
  | cons s ss ih =>
    intro tL m
    rw [privateMergeOuter]
    exact List.Forall₂.cons (privateMergeInner_fst_shape pm hpm tL m s) (ih _ _)

theorem privateMerge_fst_sameShape : ∀ (n : Nat) (s t : TreeEntry),
    SameShape (privateMerge n s t).1 s := by
  intro n
  induction n with
  | zero =>
    intro s t
    exact SameShape.refl s
  | succ n ih =>
    intro s t
    cases s with
    | file h p st e =>
      cases t with
      | file => exact SameShape.refl _
      | dir => exact SameShape.refl _
    | dir sh sp sst scs =>
      cases t with
      | file => exact SameShape.refl _
      | dir th tp tst tcs =>
        show SameShape (TreeEntry.dir sh sp sst
          (privateMergeOuter (privateMerge n) (scs.map generateSizeAndCaches)
            (tcs.map generateSizeAndCaches) _).1) (TreeEntry.dir sh sp sst scs)
        refine SameShape.dir sh sh sp sst sst _ scs rfl rfl ?_
        have h1 := privateMergeOuter_fst_shape (privateMerge n) (fun s t => ih s t)
          (scs.map generateSizeAndCaches) (tcs.map generateSizeAndCaches)
          (insertChildren (insertChildren [] (scs.map generateSizeAndCaches))
            (tcs.map generateSizeAndCaches))
        have h2 : List.Forall₂ SameShape (scs.map generateSizeAndCaches) scs := by
          rw [List.forall₂_map_left_iff]
          refine List.forall₂_same.mpr ?_
          intro c _
          exact SameShape.gsac_left (SameShape.refl c)
        exact forall2_sameShape_trans _ _ _ (fun x _ b c h1 h2 => SameShape.trans h1 h2) h1 h2

@[simp] theorem lookupA_nil (k : String) : lookupA [] k = none := rfl

theorem lookupA_cons (k0 : String) (v0 : TreeEntry) (m : List (String × TreeEntry)) (k : String) :
    lookupA ((k0, v0) :: m) k = if k0 = k then some v0 else lookupA m k := by
  simp only [lookupA, List.find?]
  by_cases h : k0 = k
  · simp [h]
  · simp [h]

@[simp] theorem setAssoc_nil (k : String) (v : TreeEntry) : setAssoc [] k v = [(k, v)] := rfl

theorem setAssoc_cons (k0 : String) (v0 : TreeEntry) (m : List (String × TreeEntry))
    (k : String) (v : TreeEntry) :
    setAssoc ((k0, v0) :: m) k v =
      if k0 = k then (k, v) :: m else (k0, v0) :: setAssoc m k v := rfl

theorem lookupA_setAssoc_self (m : List (String × TreeEntry)) (k : String) (v : TreeEntry) :
    lookupA (setAssoc m k v) k = some v := by
  induction m with
  | nil => simp [lookupA_cons]
  | cons kv m ih =>
    rw [show kv = (kv.1, kv.2) from rfl, setAssoc_cons]
    by_cases h : kv.1 = k
    · simp [lookupA_cons, h]
    · simp only [h, if_false]
      rw [lookupA_cons]
      simp only [h, if_false]
      exact ih

theorem lookupA_setAssoc_ne (m : List (String × TreeEntry)) (k k' : String) (v : TreeEntry)
    (hne : k ≠ k') :
    lookupA (setAssoc m k v) k' = lookupA m k' := by
  induction m with
  | nil => simp [lookupA_cons, hne]
  | cons kv m ih =>
    rw [show kv = (kv.1, kv.2) from rfl, setAssoc_cons]
    by_cases h : kv.1 = k
    · rw [if_pos h, lookupA_cons, lookupA_cons, if_neg hne, if_neg]
      rw [h]
      exact hne
    · rw [if_neg h, lookupA_cons, lookupA_cons]
      by_cases h2 : kv.1 = k'
      · simp [h2]
      · simp only [h2, if_false]
        exact ih

theorem mem_setAssoc (m : List (String × TreeEntry)) (k : String) (v : TreeEntry)
    (kv : String × TreeEntry) (hm : kv ∈ setAssoc m k v) : kv ∈ m ∨ kv = (k, v) := by
  induction m with
  | nil =>
    simp only [setAssoc_nil, List.mem_singleton] at hm
    exact Or.inr hm
  | cons kv0 m ih =>
    rw [show kv0 = (kv0.1, kv0.2) from rfl, setAssoc_cons] at hm
    by_cases h : kv0.1 = k
    · rw [if_pos h] at hm
      rcases List.mem_cons.mp hm with h1 | h2
      · exact Or.inr h1
      · exact Or.inl (List.mem_cons_of_mem _ h2)
    · rw [if_neg h] at hm
      rcases List.mem_cons.mp hm with h1 | h2
      · exact Or.inl (h1 ▸ List.mem_cons_self _ _)
      · rcases ih h2 with h3 | h4
        · exact Or.inl (List.mem_cons_of_mem _ h3)
        · exact Or.inr h4

@[simp] theorem childByPath_nil (p : String) : childByPath [] p = none := rfl

theorem childByPath_cons (c : TreeEntry) (cs : List TreeEntry) (p : String) :
    childByPath (c :: cs) p =
      if TreeEntry.path c = p then some c else childByPath cs p := by
  simp only [childByPath, List.find?]
  by_cases h : TreeEntry.path c = p
  · simp [h]
  · simp [h]

theorem childByPath_eq_none_iff (cs : List TreeEntry) (p : String) :
    childByPath cs p = none ↔ p ∉ cs.map TreeEntry.path := by
  induction cs with
  | nil => simp
  | cons c cs ih =>
    rw [childByPath_cons]
    by_cases h : TreeEntry.path c = p
    · simp [h]
    · simp only [h, if_false, List.map_cons, List.mem_cons]
      rw [ih]
      constructor
      · intro h1 h2
        rcases h2 with h3 | h4
        · exact h (h3.symm)
        · exact h1 h4
      · intro h1 h2
        exact h1 (Or.inr h2)

theorem childByPath_mem (cs : List TreeEntry) (p : String) (c : TreeEntry)
    (hc : childByPath cs p = some c) : c ∈ cs ∧ TreeEntry.path c = p := by
  have h1 := List.find?_some hc
  have h2 := List.mem_of_find?_eq_some hc
  exact ⟨h2, by simpa using h1⟩

theorem childByPath_map (f : TreeEntry → TreeEntry)
    (hf : ∀ c, TreeEntry.path (f c) = TreeEntry.path c) (cs : List TreeEntry) (p : String) :
    childByPath (cs.map f) p = (childByPath cs p).map f := by
  induction cs with
  | nil => simp
  | cons c cs ih =>
    rw [List.map_cons, childByPath_cons, childByPath_cons, hf]
    by_cases h : TreeEntry.path c = p
    · simp [h]
    · simp only [h, if_false]
      exact ih

@[simp] theorem insertChildren_nil_list (m : List (String × TreeEntry)) :
    insertChildren m [] = m := rfl

theorem insertChildren_cons (m : List (String × TreeEntry)) (c : TreeEntry)
    (cs : List TreeEntry) :
    insertChildren m (c :: cs) = insertChildren (setAssoc m (TreeEntry.path c) c) cs := rfl

theorem lookupA_insertChildren (cs : List TreeEntry) :
    ∀ (m : List (String × TreeEntry)) (p : String),
    (cs.map TreeEntry.path).Nodup →
    lookupA (insertChildren m cs) p =
      match childByPath cs p with
      | some c => some c
      | none => lookupA m p := by
  induction cs with
  | nil =>
    intro m p _
    rfl
  | cons c cs ih =>
    intro m p hnd
    rw [List.map_cons, List.nodup_cons] at hnd
    rw [insertChildren_cons, ih _ _ hnd.2, childByPath_cons]
    by_cases h : TreeEntry.path c = p
    · have hnone : childByPath cs p = none := by
        rw [childByPath_eq_none_iff]
        rw [← h]
        exact hnd.1
      rw [hnone, if_pos h]
      simp only []
      rw [← h]
      exact lookupA_setAssoc_self m (TreeEntry.path c) c
    · rw [if_neg h]
      cases hcb : childByPath cs p with
      | some c2 => rfl
      | none =>
        simp only []
        exact lookupA_setAssoc_ne m (TreeEntry.path c) p c h

/-- The map entry a child is stored under: its path as key. -/
def pathPair (c : TreeEntry) : String × TreeEntry := (TreeEntry.path c, c)

theorem foldl_congr_mem {α β : Type} (l : List α) (f g : β → α → β) (b : β)
    (h : ∀ b x, x ∈ l → f b x = g b x) : l.foldl f b = l.foldl g b := by
  induction l generalizing b with
  | nil => rfl
  | cons x xs ih =>
    rw [List.foldl_cons, List.foldl_cons, h b x (List.mem_cons_self x xs)]
    exact ih _ (fun b y hy => h b y (List.mem_cons_of_mem x hy))

theorem insertChildren_cons_head (k : String) (v : TreeEntry)
    (m : List (String × TreeEntry)) (cs : List TreeEntry)
    (h : ∀ c, c ∈ cs → TreeEntry.path c ≠ k) :
    insertChildren ((k, v) :: m) cs = (k, v) :: insertChildren m cs := by
  induction cs generalizing m with
  | nil => rfl
  | cons c cs ih =>
    rw [insertChildren_cons, setAssoc_cons,
      if_neg (fun he => h c (List.mem_cons_self c cs) he.symm), insertChildren_cons]
    exact ih _ (fun c2 hc2 => h c2 (List.mem_cons_of_mem c hc2))

theorem insertChildren_nil_pairs (cs : List TreeEntry)
    (hnd : (cs.map TreeEntry.path).Nodup) :
    insertChildren [] cs = cs.map pathPair := by
  induction cs with
  | nil => rfl
  | cons c cs ih =>
    rw [List.map_cons, List.nodup_cons] at hnd
    rw [insertChildren_cons, setAssoc_nil]
    rw [insertChildren_cons_head _ _ _ _ (fun c2 hc2 he => hnd.1 (by
      rw [← he]
      exact List.mem_map_of_mem TreeEntry.path hc2))]
    rw [List.map_cons, ih hnd.2]
    rfl

theorem insert_over_pairs : ∀ (vs ws : List TreeEntry),
    vs.map TreeEntry.path = ws.map TreeEntry.path →
    (vs.map TreeEntry.path).Nodup →
    insertChildren (vs.map pathPair) ws = ws.map pathPair := by
  intro vs
  induction vs with
  | nil =>
    intro ws hpaths _
    have hw : ws = [] := by
      cases ws with
      | nil => rfl
      | cons w ws => simp at hpaths
    rw [hw]
    rfl
  | cons v vs ih =>
    intro ws hpaths hnd
    cases ws with
    | nil => simp at hpaths
    | cons w ws =>
      rw [List.map_cons, List.map_cons] at hpaths
      have hvw : TreeEntry.path v = TreeEntry.path w := (List.cons.injEq _ _ _ _).mp hpaths |>.1
      have htl : vs.map TreeEntry.path = ws.map TreeEntry.path :=
        (List.cons.injEq _ _ _ _).mp hpaths |>.2
      rw [List.map_cons, List.nodup_cons] at hnd
      rw [List.map_cons, insertChildren_cons]
      rw [show setAssoc (pathPair v :: vs.map pathPair) (TreeEntry.path w) w =
        (TreeEntry.path w, w) :: vs.map pathPair from by
          rw [show pathPair v = (TreeEntry.path v, v) from rfl, setAssoc_cons, if_pos hvw]]
      rw [insertChildren_cons_head _ _ _ _ (fun c2 hc2 he => by
        have hmem := List.mem_map_of_mem TreeEntry.path hc2
        rw [he, ← hvw, ← htl] at hmem
        exact hnd.1 hmem)]
      rw [ih ws htl hnd.2, List.map_cons]
      rfl

theorem paths_replace (tL : List TreeEntry) (p0 : String) (v : TreeEntry)
    (hv : TreeEntry.path v = p0) :
    (tL.map (fun t => if TreeEntry.path t = p0 then v else t)).map TreeEntry.path =
      tL.map TreeEntry.path := by
  rw [List.map_map]
  refine List.map_congr_left ?_
  intro t _
  simp only [Function.comp_apply]
  by_cases h : TreeEntry.path t = p0
  · rw [if_pos h, hv, h]
  · rw [if_neg h]

theorem childByPath_replace_ne (tL : List TreeEntry) (p0 q : String) (v : TreeEntry)
    (hv : TreeEntry.path v = p0) (hq : q ≠ p0) :
    childByPath (tL.map (fun t => if TreeEntry.path t = p0 then v else t)) q =
      childByPath tL q := by
  induction tL with
  | nil => rfl
  | cons t ts ih =>
    rw [List.map_cons, childByPath_cons, childByPath_cons]
    by_cases h : TreeEntry.path t = p0
    · rw [if_pos h, hv]
      rw [if_neg (fun he => hq he.symm), if_neg (fun he => hq (h ▸ he.symm))]
      exact ih
    · rw [if_neg h]
      by_cases h2 : TreeEntry.path t = q
      · rw [if_pos h2, if_pos h2]
      · rw [if_neg h2, if_neg h2]
        exact ih

theorem privateMergeInner_nomatch (pm : TreeEntry → TreeEntry → TreeEntry × TreeEntry) :
    ∀ (tL : List TreeEntry) (s : TreeEntry) (m : List (String × TreeEntry)),
    childByPath tL (TreeEntry.path s) = none →
    privateMergeInner pm s tL m = (s, tL, m) := by
  intro tL
  induction tL with
  | nil =>
    intro s m _
    rfl
  | cons t ts ih =>
    intro s m hc
    rw [childByPath_cons] at hc
    by_cases h : TreeEntry.path t = TreeEntry.path s
    · rw [if_pos h] at hc
      exact absurd hc (by simp)
    · rw [if_neg h] at hc
      rw [privateMergeInner, if_neg h, ih s m hc]

theorem privateMergeInner_char (pm : TreeEntry → TreeEntry → TreeEntry × TreeEntry)
    (hpm1 : ∀ s t, TreeEntry.path (pm s t).1 = TreeEntry.path s)
    (hpm2 : ∀ s t, TreeEntry.path (pm s t).2 = TreeEntry.path t) :
    ∀ (tL : List TreeEntry), (tL.map TreeEntry.path).Nodup →
    ∀ (s : TreeEntry) (m : List (String × TreeEntry)) (t0 : TreeEntry),
    childByPath tL (TreeEntry.path s) = some t0 →
    privateMergeInner pm s tL m =
      ((pm s t0).1,
       tL.map (fun t => if TreeEntry.path t = TreeEntry.path s then (pm s t0).2 else t),
       setAssoc m (TreeEntry.path s) (pm s t0).2) := by
  intro tL
  induction tL with
  | nil =>
    intro _ s m t0 hc
    exact absurd hc (by simp)
  | cons t ts ih =>
    intro hnd s m t0 hc
    rw [List.map_cons, List.nodup_cons] at hnd
    rw [childByPath_cons] at hc
    by_cases h : TreeEntry.path t = TreeEntry.path s
    · rw [if_pos h] at hc
      have ht0 : t0 = t := by
        cases hc
        rfl
      subst ht0
      rw [privateMergeInner, if_pos h]
      have hnone : childByPath ts (TreeEntry.path (pm s t0).1) = none := by
        rw [childByPath_eq_none_iff, hpm1, ← h]
        exact hnd.1
      simp only [privateMergeInner_nomatch pm ts _ _ hnone]
      have hmap : ts.map (fun t2 => if TreeEntry.path t2 = TreeEntry.path s
          then (pm s t0).2 else t2) = ts := by
        have := List.map_congr_left (l := ts)
          (f := fun t2 => if TreeEntry.path t2 = TreeEntry.path s then (pm s t0).2 else t2)
          (g := id) ?_
        · rw [this, List.map_id]
        · intro t2 ht2
          show (if TreeEntry.path t2 = TreeEntry.path s then (pm s t0).2 else t2) = t2
          rw [if_neg]
          intro he
          rw [← h] at he
          exact hnd.1 (by
            rw [← he]
            exact List.mem_map_of_mem TreeEntry.path ht2)
      rw [List.map_cons, if_pos h, hmap, hpm2, h]
    · rw [if_neg h] at hc
      rw [privateMergeInner, if_neg h]
      simp only [ih hnd.2 s m t0 hc]
      rw [List.map_cons, if_neg h]

theorem privateMergeOuter_char (pm : TreeEntry → TreeEntry → TreeEntry × TreeEntry)
    (hpm1 : ∀ s t, TreeEntry.path (pm s t).1 = TreeEntry.path s)
    (hpm2 : ∀ s t, TreeEntry.path (pm s t).2 = TreeEntry.path t) :
    ∀ (sL tL : List TreeEntry) (m : List (String × TreeEntry)),
    (sL.map TreeEntry.path).Nodup → (tL.map TreeEntry.path).Nodup →
    (privateMergeOuter pm sL tL m).1 = sL.map (fun s =>
        match childByPath tL (TreeEntry.path s) with
        | some t => (pm s t).1
        | none => s) ∧
    (privateMergeOuter pm sL tL m).2.2 = sL.foldl (fun m s =>
        match childByPath tL (TreeEntry.path s) with
        | some t => setAssoc m (TreeEntry.path s) (pm s t).2
        | none => m) m := by
  intro sL
  induction sL with
  | nil =>
    intro tL m _ _
    exact ⟨rfl, rfl⟩
  | cons s ss ih =>
    intro tL m hndS hndT
    rw [List.map_cons, List.nodup_cons] at hndS
    have hss : ∀ s2, s2 ∈ ss → TreeEntry.path s2 ≠ TreeEntry.path s := by
      intro s2 hs2 he
      exact hndS.1 (by
        rw [← he]
        exact List.mem_map_of_mem TreeEntry.path hs2)
    cases hc : childByPath tL (TreeEntry.path s) with
    | none =>
      rw [privateMergeOuter]
      simp only [privateMergeInner_nomatch pm tL s m hc]
      have hrest := ih tL m hndS.2 hndT
      rw [hrest.1, hrest.2, List.map_cons, List.foldl_cons, hc]
      exact ⟨rfl, rfl⟩
    | some t0 =>
      rw [privateMergeOuter]
      simp only [privateMergeInner_char pm hpm1 hpm2 tL hndT s m t0 hc]
      have hpath0 : TreeEntry.path ((pm s t0).2) = TreeEntry.path s := by
        rw [hpm2]
        exact (childByPath_mem tL _ t0 hc).2
      have hndT1 : ((tL.map (fun t => if TreeEntry.path t = TreeEntry.path s
          then (pm s t0).2 else t)).map TreeEntry.path).Nodup := by
        rw [paths_replace tL _ _ hpath0]
        exact hndT
      have hrest := ih (tL.map (fun t => if TreeEntry.path t = TreeEntry.path s
          then (pm s t0).2 else t)) (setAssoc m (TreeEntry.path s) (pm s t0).2) hndS.2 hndT1
      constructor
      · rw [hrest.1, List.map_cons, hc]
        refine congrArg _ ?_
        refine List.map_congr_left ?_
        intro s2 hs2
        rw [childByPath_replace_ne tL _ _ _ hpath0 (hss s2 hs2)]
      · rw [hrest.2, List.foldl_cons, hc]
        refine foldl_congr_mem ss _ _ _ ?_
        intro b s2 hs2
        rw [childByPath_replace_ne tL _ _ _ hpath0 (hss s2 hs2)]

/-- Every stored value sits under its own path as key (true of all maps
`privateMerge` and `getAllTreeFiles` build). -/
def KeyedByPath (m : List (String × TreeEntry)) : Prop :=
  ∀ kv, kv ∈ m → TreeEntry.path kv.2 = kv.1

theorem KeyedByPath.setAssoc_pres (m : List (String × TreeEntry)) (k : String) (v : TreeEntry)
    (hm : KeyedByPath m) (hv : TreeEntry.path v = k) : KeyedByPath (setAssoc m k v) := by
  intro kv hkv
  rcases mem_setAssoc m k v kv hkv with h1 | h2
  · exact hm kv h1
  · rw [h2]
    exact hv

theorem KeyedByPath.insertChildren_pres (cs : List TreeEntry) :
    ∀ (m : List (String × TreeEntry)), KeyedByPath m → KeyedByPath (insertChildren m cs) := by
  induction cs with
  | nil =>
    intro m hm
    exact hm
  | cons c cs ih =>
    intro m hm
    rw [insertChildren_cons]
    exact ih _ (hm.setAssoc_pres m _ c rfl)

theorem childByPath_map_snd (m : List (String × TreeEntry)) (hm : KeyedByPath m) (p : String) :
    childByPath (m.map Prod.snd) p = lookupA m p := by
  induction m with
  | nil => rfl
  | cons kv m ih =>
    rw [List.map_cons, childByPath_cons, show kv = (kv.1, kv.2) from rfl, lookupA_cons]
    rw [hm kv (List.mem_cons_self kv m)]
    by_cases h : kv.1 = p
    · rw [if_pos h, if_pos h]
    · rw [if_neg h, if_neg h]
      exact ih (fun kv2 hkv2 => hm kv2 (List.mem_cons_of_mem kv hkv2))

theorem lookupA_mergeFold (pm : TreeEntry → TreeEntry → TreeEntry × TreeEntry)
    (tL : List TreeEntry) :
    ∀ (sL : List TreeEntry) (m : List (String × TreeEntry)) (p : String),
    (sL.map TreeEntry.path).Nodup →
    lookupA (sL.foldl (fun m s =>
        match childByPath tL (TreeEntry.path s) with
        | some t => setAssoc m (TreeEntry.path s) (pm s t).2
        | none => m) m) p =
      match childByPath sL p, childByPath tL p with
      | some s, some t => some (pm s t).2
      | _, _ => lookupA m p := by
  intro sL
  induction sL with
  | nil =>
    intro m p _
    cases childByPath tL p <;> rfl
  | cons s0 ss ih =>
    intro m p hnd
    rw [List.map_cons, List.nodup_cons] at hnd
    rw [List.foldl_cons, childByPath_cons]
    by_cases h : TreeEntry.path s0 = p
    · have hnone : childByPath ss p = none := by
        rw [childByPath_eq_none_iff, ← h]
        exact hnd.1
      rw [if_pos h, ih _ p hnd.2, hnone, h]
      cases hct : childByPath tL p with
      | none => rfl
      | some t => exact lookupA_setAssoc_self m p _
    · rw [if_neg h, ih _ p hnd.2]
      have hm1 : lookupA (match childByPath tL (TreeEntry.path s0) with
          | some t => setAssoc m (TreeEntry.path s0) (pm s0 t).2
          | none => m) p = lookupA m p := by
        cases childByPath tL (TreeEntry.path s0) with
        | none => rfl
        | some t => exact lookupA_setAssoc_ne m _ p _ h
      cases hcs : childByPath ss p with
      | some s2 =>
        cases hct : childByPath tL p with
        | some t => rfl
        | none => exact hm1
      | none =>
        cases hct : childByPath tL p with
        | some t => exact hm1
        | none => exact hm1

theorem privateMerge_succ_dir (n : Nat) (sh sp : String) (sst : StatsSubset)
    (scs : List TreeEntry) (th tp : String) (tst : StatsSubset) (tcs : List TreeEntry) :
    privateMerge (n + 1) (.dir sh sp sst scs) (.dir th tp tst tcs) =
      (.dir sh sp sst
        (privateMergeOuter (privateMerge n) (scs.map generateSizeAndCaches)
          (tcs.map generateSizeAndCaches)
          (insertChildren (insertChildren [] (scs.map generateSizeAndCaches))
            (tcs.map generateSizeAndCaches))).1,
       .dir (calculateSizeAndHash
          ((privateMergeOuter (privateMerge n) (scs.map generateSizeAndCaches)
            (tcs.map generateSizeAndCaches)
            (insertChildren (insertChildren [] (scs.map generateSizeAndCaches))
              (tcs.map generateSizeAndCaches))).2.2.map Prod.snd)).2 tp
         { tst with size := (calculateSizeAndHash
          ((privateMergeOuter (privateMerge n) (scs.map generateSizeAndCaches)
            (tcs.map generateSizeAndCaches)
            (insertChildren (insertChildren [] (scs.map generateSizeAndCaches))
              (tcs.map generateSizeAndCaches))).2.2.map Prod.snd)).1 }
         ((privateMergeOuter (privateMerge n) (scs.map generateSizeAndCaches)
            (tcs.map generateSizeAndCaches)
            (insertChildren (insertChildren [] (scs.map generateSizeAndCaches))
              (tcs.map generateSizeAndCaches))).2.2.map Prod.snd)) := rfl

theorem privateMerge_not_dirs (n : Nat) (s t : TreeEntry)
    (h : TreeEntry.isDirectory s = false ∨ TreeEntry.isDirectory t = false) :
    privateMerge n s t = (s, t) := by
  cases n with
  | zero => rfl
  | succ n =>
    cases s with
    | file h1 p1 st1 e1 => cases t <;> rfl
    | dir h1 p1 st1 cs1 =>
      cases t with
      | file h2 p2 st2 e2 => rfl
      | dir h2 p2 st2 cs2 =>
        simp [TreeEntry.isDirectory] at h

theorem TreeEntry.clone_path (e : TreeEntry) :
    TreeEntry.path (TreeEntry.clone e) = TreeEntry.path e := by
  cases e with
  | file h p st ex =>
    rw [TreeEntry.clone_file]
  | dir h p st cs =>
    rw [TreeEntry.clone_dir]
    rfl

theorem paths_map_gsac (cs : List TreeEntry) :
    (cs.map generateSizeAndCaches).map TreeEntry.path = cs.map TreeEntry.path := by
  rw [List.map_map]
  exact List.map_congr_left (fun c _ => path_gsac c)

theorem paths_map_clone (cs : List TreeEntry) :
    (cs.map TreeEntry.clone).map TreeEntry.path = cs.map TreeEntry.path := by
  rw [List.map_map]
  exact List.map_congr_left (fun c _ => TreeEntry.clone_path c)

theorem KeyedByPath.mergeFold_pres (pm : TreeEntry → TreeEntry → TreeEntry × TreeEntry)
    (hpm2 : ∀ s t, TreeEntry.path (pm s t).2 = TreeEntry.path t) (tL : List TreeEntry) :
    ∀ (sL : List TreeEntry) (m : List (String × TreeEntry)), KeyedByPath m →
    KeyedByPath (sL.foldl (fun m s =>
        match childByPath tL (TreeEntry.path s) with
        | some t => setAssoc m (TreeEntry.path s) (pm s t).2
        | none => m) m) := by
  intro sL
  induction sL with
  | nil =>
    intro m hm
    exact hm
  | cons s ss ih =>
    intro m hm
    rw [List.foldl_cons]
    refine ih _ ?_
    cases hct : childByPath tL (TreeEntry.path s) with
    | none => exact hm
    | some t =>
      refine hm.setAssoc_pres m _ _ ?_
      rw [hpm2]
      exact (childByPath_mem tL _ t hct).2

/-- The path-keyed content of one level of `TreeDir.merge`'s result:
a path held only by a source child keeps the (cache-recomputed) source
child; a path held only by a target child keeps the cloned, then
cache-recomputed, target child; a path held by both sides maps to the
recursive `privateMerge` of the two (cache-recomputed) children. -/
theorem mergeResult_childByPath (sh sp : String) (sst : StatsSubset) (scs : List TreeEntry)
    (th tp : String) (tst : StatsSubset) (tcs : List TreeEntry)
    (hndS : (scs.map TreeEntry.path).Nodup) (hndT : (tcs.map TreeEntry.path).Nodup)
    (p : String) :
    childByPath (TreeEntry.children
        (TreeDir.merge (.dir sh sp sst scs) (.dir th tp tst tcs))) p =
      match childByPath scs p, childByPath tcs p with
      | some sc, some tc => some ((privateMerge ((scs.map TreeEntry.size).sum)
          (generateSizeAndCaches sc)
          (generateSizeAndCaches (TreeEntry.clone tc))).2)
      | some sc, none => some (generateSizeAndCaches sc)
      | none, some tc => some (generateSizeAndCaches (TreeEntry.clone tc))
      | none, none => none := by
  have hsize : TreeEntry.size (TreeEntry.dir sh sp sst scs) =
      (scs.map TreeEntry.size).sum + 1 := by
    rw [TreeEntry.size_dir, Nat.add_comm]
  rw [TreeDir.merge, TreeEntry.clone_dir, hsize, privateMerge_succ_dir]
  rw [TreeEntry.children_dir]
  have hndS1 : ((scs.map generateSizeAndCaches).map TreeEntry.path).Nodup := by
    rw [paths_map_gsac]
    exact hndS
  have hndT1 : (((tcs.map TreeEntry.clone).map generateSizeAndCaches).map TreeEntry.path).Nodup := by
    rw [paths_map_gsac, paths_map_clone]
    exact hndT
  have hchar := privateMergeOuter_char (privateMerge ((scs.map TreeEntry.size).sum))
    (privateMerge_fst_path _) (privateMerge_snd_path _)
    (scs.map generateSizeAndCaches) ((tcs.map TreeEntry.clone).map generateSizeAndCaches)
    (insertChildren (insertChildren [] (scs.map generateSizeAndCaches))
      ((tcs.map TreeEntry.clone).map generateSizeAndCaches)) hndS1 hndT1
  rw [hchar.2]
  have hkeyed : KeyedByPath ((scs.map generateSizeAndCaches).foldl (fun m s =>
      match childByPath ((tcs.map TreeEntry.clone).map generateSizeAndCaches)
          (TreeEntry.path s) with
      | some t => setAssoc m (TreeEntry.path s)
          ((privateMerge ((scs.map TreeEntry.size).sum) s t).2)
      | none => m)
      (insertChildren (insertChildren [] (scs.map generateSizeAndCaches))
        ((tcs.map TreeEntry.clone).map generateSizeAndCaches))) := by
    refine KeyedByPath.mergeFold_pres _ (privateMerge_snd_path _) _ _ _ ?_
    refine KeyedByPath.insertChildren_pres _ _ ?_
    refine KeyedByPath.insertChildren_pres _ _ ?_
    intro kv hkv
    exact absurd hkv (List.not_mem_nil kv)
  rw [childByPath_map_snd _ hkeyed p]
  rw [lookupA_mergeFold _ _ _ _ p hndS1]
  have hcs1 : childByPath (scs.map generateSizeAndCaches) p =
      (childByPath scs p).map generateSizeAndCaches :=
    childByPath_map generateSizeAndCaches path_gsac scs p
  have hct1 : childByPath ((tcs.map TreeEntry.clone).map generateSizeAndCaches) p =
      (childByPath tcs p).map (fun c => generateSizeAndCaches (TreeEntry.clone c)) := by
    rw [List.map_map]
    refine childByPath_map _ ?_ tcs p
    intro c
    simp only [Function.comp_apply]
    rw [path_gsac, TreeEntry.clone_path]
  rw [lookupA_insertChildren _ _ _ hndT1, lookupA_insertChildren _ _ _ hndS1]
  rw [hcs1, hct1]
  cases hcs : childByPath scs p with
  | none =>
    cases hct : childByPath tcs p with
    | none => rfl
    | some tc => rfl
  | some sc =>
    cases hct : childByPath tcs p with
    | none => rfl
    | some tc => rfl

theorem gsac_eq_self_of_wf (e : TreeEntry) (hwf : WellFormed e) :
    generateSizeAndCaches e = e := by
  cases e with
  | file h p st ex => rfl
  | dir h p st cs =>
    cases hwf with
    | dir _ _ _ _ hnd hh hsz hwf2 =>
      show TreeEntry.dir (calculateSizeAndHash cs).2 p
        { st with size := (calculateSizeAndHash cs).1 } cs = TreeEntry.dir h p st cs
      rw [show (calculateSizeAndHash cs).2 = digestStr (cs.map TreeEntry.hash) from rfl,
        show (calculateSizeAndHash cs).1 = sumSizes cs from rfl, ← hh, ← hsz]

theorem map_gsac_eq_self (cs : List TreeEntry) (hwf : ∀ c, c ∈ cs → WellFormed c) :
    cs.map generateSizeAndCaches = cs := by
  rw [show cs = cs.map id from (List.map_id cs).symm]
  rw [List.map_map]
  refine List.map_congr_left ?_
  intro c hc
  simp only [Function.comp_apply, id]
  exact gsac_eq_self_of_wf c (hwf c (by simpa using hc))

theorem forall₂_sameShape_paths : ∀ (vs ws : List TreeEntry),
    List.Forall₂ SameShape vs ws → vs.map TreeEntry.path = ws.map TreeEntry.path := by
  intro vs
  induction vs with
  | nil =>
    intro ws hf
    cases hf
    rfl
  | cons v vs ih =>
    intro ws hf
    cases hf with
    | cons hvw hrest =>
      rw [List.map_cons, List.map_cons, hvw.path_eq, ih _ hrest]

theorem childByPath_of_forall₂ (R : TreeEntry → TreeEntry → Prop) :
    ∀ (vs ws : List TreeEntry), List.Forall₂ R vs ws →
    vs.map TreeEntry.path = ws.map TreeEntry.path →
    (vs.map TreeEntry.path).Nodup →
    ∀ v, v ∈ vs → ∃ w, childByPath ws (TreeEntry.path v) = some w ∧ R v w := by
  intro vs
  induction vs with
  | nil =>
    intro ws _ _ _ v hv
    exact absurd hv (List.not_mem_nil v)
  | cons v0 vs ih =>
    intro ws hf hpaths hnd v hv
    cases hf with
    | cons hvw hrest =>
      rename_i w0 ws0
      rw [List.map_cons, List.map_cons] at hpaths
      have hpw : TreeEntry.path v0 = TreeEntry.path w0 :=
        ((List.cons.injEq _ _ _ _).mp hpaths).1
      have htl : vs.map TreeEntry.path = ws0.map TreeEntry.path :=
        ((List.cons.injEq _ _ _ _).mp hpaths).2
      rw [List.map_cons, List.nodup_cons] at hnd
      rcases List.mem_cons.mp hv with hv0 | hvs
      · subst hv0
        refine ⟨w0, ?_, hvw⟩
        rw [childByPath_cons, if_pos hpw.symm]
      · obtain ⟨w, hw, hRw⟩ := ih ws0 hrest htl hnd.2 v hvs
        refine ⟨w, ?_, hRw⟩
        rw [childByPath_cons, if_neg, hw]
        intro he
        rw [← hpw] at he
        exact hnd.1 (by
          rw [he]
          exact List.mem_map_of_mem TreeEntry.path hvs)

theorem map_pathPair_snd (cs : List TreeEntry) :
    (cs.map pathPair).map Prod.snd = cs := by
  rw [List.map_map]
  rw [show cs = cs.map id from (List.map_id cs).symm]
  rw [List.map_map]
  exact List.map_congr_left (fun c _ => rfl)

/-- Core of the merge-with-itself law: merging a sealed tree `s` with any
tree of the same shape (in particular its own clone) returns `s` itself,
and leaves `s` unchanged, for any sufficient fuel. -/
theorem privateMerge_self : ∀ (n : Nat) (s t : TreeEntry), WellFormed s → SameShape t s →
    TreeEntry.size s ≤ n → privateMerge n s t = (s, s) := by
  intro n
  induction n with
  | zero =>
    intro s t _ _ hsz
    have h1 := TreeEntry.size_pos s
    omega
  | succ n ih =>
    intro s t hwf hss hsz
    cases s with
    | file h p st ex =>
      cases hss with
      | file => rfl
    | dir sh sp sst scs =>
      cases hss with
      | dir th th2 tp2 tst tst2 tcs tcs2 hct hmt hff =>
        cases hwf with
        | dir _ _ _ _ hnd hh hsiz hwfc =>
          rw [privateMerge_succ_dir]
          have hgs : scs.map generateSizeAndCaches = scs := map_gsac_eq_self scs hwfc
          have htpaths : tcs.map TreeEntry.path = scs.map TreeEntry.path :=
            forall₂_sameShape_paths tcs scs hff
          have ht1paths : (tcs.map generateSizeAndCaches).map TreeEntry.path =
              scs.map TreeEntry.path := by
            rw [paths_map_gsac]
            exact htpaths
          have hndT1 : ((tcs.map generateSizeAndCaches).map TreeEntry.path).Nodup := by
            rw [ht1paths]
            exact hnd
          -- the relation carried pointwise from scs to the recomputed tcs
          have hfR : List.Forall₂ (fun s t => SameShape t s) scs (tcs.map generateSizeAndCaches) := by
            rw [List.forall₂_map_right_iff]
            have hflip : List.Forall₂ (flip SameShape) scs tcs := List.Forall₂.flip hff
            exact hflip.imp (fun a b hab => hab.gsac_left)
          have hpoint := childByPath_of_forall₂ (fun s t => SameShape t s) scs
            (tcs.map generateSizeAndCaches) hfR ht1paths.symm hnd
          have hsub : ∀ c, c ∈ scs → TreeEntry.size c ≤ n := by
            intro c hc
            have h1 := TreeEntry.size_lt_of_mem_children sh sp sst scs c hc
            omega
          have hm2 : insertChildren (insertChildren [] scs) (tcs.map generateSizeAndCaches) =
              (tcs.map generateSizeAndCaches).map pathPair := by
            rw [insertChildren_nil_pairs scs hnd]
            exact insert_over_pairs scs (tcs.map generateSizeAndCaches) ht1paths.symm hnd
          have hchar := privateMergeOuter_char (privateMerge n)
            (privateMerge_fst_path n) (privateMerge_snd_path n)
            scs (tcs.map generateSizeAndCaches)
            ((tcs.map generateSizeAndCaches).map pathPair) hnd hndT1
          have hfst : (privateMergeOuter (privateMerge n) scs (tcs.map generateSizeAndCaches)
              ((tcs.map generateSizeAndCaches).map pathPair)).1 = scs := by
            rw [hchar.1]
            refine (List.map_congr_left ?_).trans (List.map_id scs)
            intro c hc
            obtain ⟨w, hw, hRw⟩ := hpoint c hc
            rw [hw]
            show (privateMerge n c w).1 = id c
            rw [ih c w (hwfc c hc) hRw (hsub c hc)]
            rfl
          have hsnd : (privateMergeOuter (privateMerge n) scs (tcs.map generateSizeAndCaches)
              ((tcs.map generateSizeAndCaches).map pathPair)).2.2 = scs.map pathPair := by
            rw [hchar.2]
            have hfold : scs.foldl (fun m s =>
                match childByPath (tcs.map generateSizeAndCaches) (TreeEntry.path s) with
                | some t => setAssoc m (TreeEntry.path s) ((privateMerge n s t).2)
                | none => m) ((tcs.map generateSizeAndCaches).map pathPair) =
                insertChildren ((tcs.map generateSizeAndCaches).map pathPair) scs := by
              refine foldl_congr_mem scs _ _ _ ?_
              intro b c hc
              obtain ⟨w, hw, hRw⟩ := hpoint c hc
              rw [hw]
              show setAssoc b (TreeEntry.path c) (privateMerge n c w).2 =
                setAssoc b (TreeEntry.path c) c
              rw [ih c w (hwfc c hc) hRw (hsub c hc)]
            rw [hfold]
            exact insert_over_pairs (tcs.map generateSizeAndCaches) scs ht1paths hndT1
          rw [hgs, hm2, hfst, hsnd, map_pathPair_snd]
          rw [show (calculateSizeAndHash scs).2 = digestStr (scs.map TreeEntry.hash) from rfl,
            show (calculateSizeAndHash scs).1 = sumSizes scs from rfl, ← hh]
          have hstats : { tst with size := sumSizes scs } = sst := by
            cases sst
            cases tst
            simp only [StatsSubset.mk.injEq] at hct hmt ⊢
            simp only [] at hsiz
            exact ⟨hsiz.symm, hct, hmt⟩
          rw [hstats]

theorem foldl_lastMatch (p : String) : ∀ (l : List TreeEntry) (acc : Option TreeEntry),
    l.foldl (fun acc e => if TreeEntry.path e = p then some e else acc) acc =
      match (l.filter (fun e => TreeEntry.path e = p)).getLast? with
      | some x => some x
      | none => acc := by
  intro l
  induction l with
  | nil =>
    intro acc
    rfl
  | cons e es ih =>
    intro acc
    rw [List.foldl_cons, ih]
    show (match (es.filter (fun e => TreeEntry.path e = p)).getLast? with
      | some x => some x
      | none => if TreeEntry.path e = p then some e else acc) = _
    by_cases h : TreeEntry.path e = p
    · rw [List.filter_cons_of_pos (by simp [h])]
      cases hles : (es.filter (fun e => TreeEntry.path e = p)).getLast? with
      | some x =>
        cases hL : es.filter (fun e => TreeEntry.path e = p) with
        | nil =>
          rw [hL] at hles
          exact absurd hles (by simp)
        | cons y L2 =>
          rw [hL] at hles
          rw [List.getLast?_cons_cons, hles]
      | none =>
        have hemp : es.filter (fun e => TreeEntry.path e = p) = [] :=
          List.getLast?_eq_none_iff.mp hles
        rw [hemp]
        simp only [List.getLast?_singleton]
        rw [if_pos h]
    · rw [List.filter_cons_of_neg (by simp [h])]
      cases hles : (es.filter (fun e => TreeEntry.path e = p)).getLast? with
      | some x => rfl
      | none => rw [if_neg h]

theorem filter_path_singleton (q : String) : ∀ (l : List TreeEntry),
    ((l.map TreeEntry.path).Nodup) →
    (l.filter (fun e => TreeEntry.path e = q)).getLast? =
      (l.filter (fun e => TreeEntry.path e = q)).head? := by
  intro l
  induction l with
  | nil =>
    intro _
    rfl
  | cons e es ih =>
    intro hnd
    rw [List.map_cons, List.nodup_cons] at hnd
    by_cases h : TreeEntry.path e = q
    · rw [List.filter_cons_of_pos (by simp [h])]
      have hemp : es.filter (fun e => TreeEntry.path e = q) = [] := by
        rw [List.filter_eq_nil_iff]
        intro a ha hpa
        simp only [decide_eq_true_eq] at hpa
        refine hnd.1 ?_
        rw [h, ← hpa]
        exact List.mem_map_of_mem TreeEntry.path ha
      rw [hemp]
      rfl
    · rw [List.filter_cons_of_neg (by simp [h])]
      exact ih hnd.2

theorem mem_walkList_size : ∀ (d e : TreeEntry), e ∈ TreeDir.walkList d →
    TreeEntry.size e < TreeEntry.size d := by
  have hmain : ∀ d, ∀ e, e ∈ TreeDir.walkList d → TreeEntry.size e < TreeEntry.size d := by
    intro d
    induction d using TreeEntry.induction_on with
    | hfile h p st ex =>
      intro e he
      rw [TreeDir.walkList_file] at he
      exact absurd he (List.not_mem_nil e)
    | hdir h p st cs ih =>
      intro e he
      rw [TreeDir.walkList_dir] at he
      rw [List.mem_flatten] at he
      obtain ⟨l, hl, hel⟩ := he
      rw [List.mem_map] at hl
      obtain ⟨c, hc, hcl⟩ := hl
      rw [← hcl] at hel
      rcases List.mem_cons.mp hel with h1 | h2
      · rw [h1]
        exact TreeEntry.size_lt_of_mem_children h p st cs c hc
      · exact Nat.lt_trans (ih c hc e h2) (TreeEntry.size_lt_of_mem_children h p st cs c hc)
  exact hmain

theorem mem_gatfVisit_size : ∀ (e : TreeEntry) (incl : Bool) (m : List (String × TreeEntry))
    (kv : String × TreeEntry), kv ∈ gatfVisit incl m e →
    kv ∈ m ∨ TreeEntry.size kv.2 ≤ TreeEntry.size e := by
  intro e
  induction e using TreeEntry.induction_on with
  | hfile h p st ex =>
    intro incl m kv hkv
    rw [gatfVisit_file] at hkv
    rcases mem_setAssoc m p _ kv hkv with h1 | h2
    · exact Or.inl h1
    · refine Or.inr ?_
      rw [h2]
  | hdir h p st cs ih =>
    intro incl m kv hkv
    rw [gatfVisit_dir] at hkv
    have hfold : ∀ (cs2 : List TreeEntry), (∀ c, c ∈ cs2 → c ∈ cs) →
        ∀ (m2 : List (String × TreeEntry)), kv ∈ cs2.foldl (gatfVisit incl) m2 →
        kv ∈ m2 ∨ ∃ c, c ∈ cs ∧ TreeEntry.size kv.2 ≤ TreeEntry.size c := by
      intro cs2
      induction cs2 with
      | nil =>
        intro _ m2 hm2
        exact Or.inl hm2
      | cons c0 cs2 ih2 =>
        intro hsub m2 hm2
        rw [List.foldl_cons] at hm2
        rcases ih2 (fun c hc => hsub c (List.mem_cons_of_mem c0 hc)) _ hm2 with h1 | h2
        · rcases ih c0 (hsub c0 (List.mem_cons_self c0 cs2)) incl m2 kv h1 with h3 | h4
          · exact Or.inl h3
          · exact Or.inr ⟨c0, hsub c0 (List.mem_cons_self c0 cs2), h4⟩
        · exact Or.inr h2
    have hm1 : ∀ kv2, kv2 ∈ (if incl then setAssoc m p (.dir h p st cs) else m) →
        kv2 ∈ m ∨ TreeEntry.size kv2.2 ≤ TreeEntry.size (.dir h p st cs) := by
      intro kv2 hkv2
      cases incl with
      | false =>
        rw [if_neg (by simp)] at hkv2
        exact Or.inl hkv2
      | true =>
        rw [if_pos rfl] at hkv2
        rcases mem_setAssoc m p _ kv2 hkv2 with h1 | h2
        · exact Or.inl h1
        · refine Or.inr ?_
          rw [h2]
    rcases hfold cs (fun c hc => hc) _ hkv with h1 | h2
    · rcases hm1 kv h1 with h3 | h4
      · exact Or.inl h3
      · exact Or.inr h4
    · obtain ⟨c, hc, hle⟩ := h2
      refine Or.inr (Nat.le_of_lt ?_)
      exact Nat.lt_of_le_of_lt hle (TreeEntry.size_lt_of_mem_children h p st cs c hc)

theorem mem_gatfFold_size (incl : Bool) : ∀ (cs : List TreeEntry)
    (m : List (String × TreeEntry)) (kv : String × TreeEntry),
    kv ∈ cs.foldl (gatfVisit incl) m →
    kv ∈ m ∨ ∃ c, c ∈ cs ∧ TreeEntry.size kv.2 ≤ TreeEntry.size c := by
  intro cs
  induction cs with
  | nil =>
    intro m kv hkv
    exact Or.inl hkv
  | cons c0 cs ih =>
    intro m kv hkv
    rw [List.foldl_cons] at hkv
    rcases ih _ kv hkv with h1 | h2
    · rcases mem_gatfVisit_size c0 incl m kv h1 with h3 | h4
      · exact Or.inl h3
      · exact Or.inr ⟨c0, List.mem_cons_self c0 cs, h4⟩
    · obtain ⟨c, hc, hle⟩ := h2
      exact Or.inr ⟨c, List.mem_cons_of_mem c0 hc, hle⟩

theorem mem_shallowFold (cond : TreeEntry → Bool) : ∀ (cs : List TreeEntry)
    (m : List (String × TreeEntry)) (kv : String × TreeEntry),
    kv ∈ cs.foldl (fun m o => if cond o then setAssoc m (TreeEntry.path o) o else m) m →
    kv ∈ m ∨ ∃ o, o ∈ cs ∧ kv.2 = o := by
  intro cs
  induction cs with
  | nil =>
    intro m kv hkv
    exact Or.inl hkv
  | cons c0 cs ih =>
    intro m kv hkv
    rw [List.foldl_cons] at hkv
    rcases ih _ kv hkv with h1 | h2
    · by_cases hc0 : cond c0
      · rw [if_pos hc0] at h1
        rcases mem_setAssoc m _ c0 kv h1 with h3 | h4
        · exact Or.inl h3
        · refine Or.inr ⟨c0, List.mem_cons_self c0 cs, ?_⟩
          rw [h4]
      · rw [if_neg hc0] at h1
        exact Or.inl h1
    · obtain ⟨o, ho, heq⟩ := h2
      exact Or.inr ⟨o, List.mem_cons_of_mem c0 ho, heq⟩

/-- C5: for every captured File entry, live stat result and detection mode:
a live size differing from the captured size yields `modified = true` with
no content read; otherwise an absolute mtime difference strictly below 1.0
ms yields `modified = false` with no content read — both regardless of the
detection mode. -/
theorem isFileModified_size_and_mtime_gate (f : TreeEntry) (newStats : StatsSubset)
    (detectionMode : Int) (partHash : String) :
    ((TreeEntry.stats f).size ≠ newStats.size →
      TreeFile.isFileModified f newStats detectionMode partHash =
        { modified := true, contentRead := false }) ∧
    ((TreeEntry.stats f).size = newStats.size →
      |(TreeEntry.stats f).mtimeMs - newStats.mtimeMs| < 1 →
      TreeFile.isFileModified f newStats detectionMode partHash =
        { modified := false, contentRead := false }) := by
  constructor
  · intro h
    rw [TreeFile.isFileModified, if_pos h]
  · intro h hlt
    rw [TreeFile.isFileModified, if_neg (fun hc => hc h), if_neg (not_le.mpr hlt)]

/-- C5 witness: captured size 100, mtime 1000; live size 100, mtime 1000.4
(difference 0.4 ms, under the tolerance) is reported unmodified with no
content read, here under `SIZE_AND_HASH_FOR_ALL_FILES`. -/
theorem isFileModified_size_and_mtime_gate_witness :
    TreeFile.isFileModified (.file "h" "a.txt" ⟨100, 0, 1000⟩ ".txt")
      ⟨100, 0, (5002 : Rat)/5⟩ 3 "other" = { modified := false, contentRead := false } := by
  refine (isFileModified_size_and_mtime_gate (.file "h" "a.txt" ⟨100, 0, 1000⟩ ".txt")
    ⟨100, 0, (5002 : Rat)/5⟩ 3 "other").2 rfl ?_
  rw [TreeEntry.stats_file, abs_lt]
  constructor <;> norm_num

/-- C6: when sizes agree and the mtime difference is at least 1 ms, the
detection mode decides: `ONLY_SIZE_AND_MKTIME` reports modified without
reading content; `SIZE_AND_HASH_FOR_SMALL_FILES` reports modified without
reading content for sizes of at least `MB20` and otherwise compares the
partial content hash; `SIZE_AND_HASH_FOR_ALL_FILES` and every unrecognized
mode value compare the partial content hash, reporting modified exactly
when the hashes differ. -/
theorem isFileModified_mode_dispatch (f : TreeEntry) (newStats : StatsSubset)
    (detectionMode : Int) (partHash : String)
    (hsz : (TreeEntry.stats f).size = newStats.size)
    (hmt : |(TreeEntry.stats f).mtimeMs - newStats.mtimeMs| ≥ 1) :
    (detectionMode = ONLY_SIZE_AND_MKTIME →
      TreeFile.isFileModified f newStats detectionMode partHash =
        { modified := true, contentRead := false }) ∧
    (detectionMode = SIZE_AND_HASH_FOR_SMALL_FILES → (TreeEntry.stats f).size ≥ MB20 →
      TreeFile.isFileModified f newStats detectionMode partHash =
        { modified := true, contentRead := false }) ∧
    (detectionMode = SIZE_AND_HASH_FOR_SMALL_FILES → (TreeEntry.stats f).size < MB20 →
      TreeFile.isFileModified f newStats detectionMode partHash =
        { modified := TreeEntry.hash f ≠ partHash, contentRead := true }) ∧
    (detectionMode ≠ ONLY_SIZE_AND_MKTIME → detectionMode ≠ SIZE_AND_HASH_FOR_SMALL_FILES →
      TreeFile.isFileModified f newStats detectionMode partHash =
        { modified := TreeEntry.hash f ≠ partHash, contentRead := true }) := by
  refine ⟨?_, ?_, ?_, ?_⟩
  · intro h1
    rw [TreeFile.isFileModified, if_neg (fun hc => hc hsz), if_pos hmt, if_pos h1]
  · intro h2 hge
    rw [TreeFile.isFileModified, if_neg (fun hc => hc hsz), if_pos hmt,
      if_neg (by
        rw [h2]
        decide), if_pos ⟨h2, hge⟩]
  · intro h2 hlt
    rw [TreeFile.isFileModified, if_neg (fun hc => hc hsz), if_pos hmt,
      if_neg (by
        rw [h2]
        decide), if_neg (fun hc => absurd hc.2 (not_le.mpr hlt))]
  · intro h1 h2
    rw [TreeFile.isFileModified, if_neg (fun hc => hc hsz), if_pos hmt,
      if_neg h1, if_neg (fun hc => h2 hc.1)]

/-- C6 witness: size 100 (below 20 MiB), mtime difference 5 ms, mode
`SIZE_AND_HASH_FOR_SMALL_FILES`, differing partial hash: content is read
and the file is reported modified. -/
theorem isFileModified_mode_dispatch_witness :
    TreeFile.isFileModified (.file "h" "a.txt" ⟨100, 0, 1005⟩ ".txt")
      ⟨100, 0, 1000⟩ 2 "other" = { modified := true, contentRead := true } := by
  have h := (isFileModified_mode_dispatch (.file "h" "a.txt" ⟨100, 0, 1005⟩ ".txt")
    ⟨100, 0, 1000⟩ 2 "other" rfl (by
      rw [TreeEntry.stats_file, ge_iff_le, le_abs]
      left
      norm_num)).2.2.1 rfl (by
        rw [TreeEntry.stats_file]
        norm_num [MB20])
  rw [h]
  rfl

/-- C9: serializing an entry whose path/parent invariant is violated — a
non-empty path with no parent, or a parent with an empty path — fails
(returns `none`) instead of emitting output, for files and directories
alike. -/
theorem toString_fails_on_invariant_violation (e : TreeEntry) (hasParent : Bool)
    (hviol : (hasParent = false ∧ TreeEntry.path e ≠ "") ∨
      (hasParent = true ∧ TreeEntry.path e = "")) :
    TreeEntry.toString hasParent e = none := by
  cases e with
  | file h p st ex =>
    rw [TreeEntry.path_file] at hviol
    rw [TreeEntry.toString]
    rcases hviol with ⟨hb, hp⟩ | ⟨hb, hp⟩
    · rw [if_pos ⟨hb, hp⟩]
    · rw [if_neg (fun hc => by
        rw [hb] at hc
        exact Bool.true_eq_false.mp hc.1), if_pos ⟨hb, hp⟩]
  | dir h p st cs =>
    rw [TreeEntry.path_dir] at hviol
    rw [TreeEntry.toString]
    rcases hviol with ⟨hb, hp⟩ | ⟨hb, hp⟩
    · rw [if_pos ⟨hb, hp⟩]
    · rw [if_neg (fun hc => by
        rw [hb] at hc
        exact Bool.true_eq_false.mp hc.1), if_pos ⟨hb, hp⟩]

/-- C9 witness: a parentless file carrying the non-empty path `"a.txt"`
fails to serialize. -/
theorem toString_fails_on_invariant_violation_witness :
    TreeEntry.toString false (.file "h" "a.txt" ⟨1, 0, 0⟩ ".txt") = none := by
  refine toString_fails_on_invariant_violation (.file "h" "a.txt" ⟨1, 0, 0⟩ ".txt") false
    (Or.inl ⟨rfl, ?_⟩)
  rw [TreeEntry.path_file]
  decide

/-- C10: the root directory never appears in traversal results: `walk`
never visits the tree it is called on (only entries at depth one and
below), and `getAllTreeFiles` never stores the root itself under any path,
for any combination of `entireHierarchy` and `includeDirs`. -/
theorem root_never_in_traversals (d : TreeEntry) :
    d ∉ TreeDir.walkList d ∧
    ∀ (entireHierarchy includeDirs : Bool) (p : String),
      (p, d) ∉ TreeDir.getAllTreeFiles entireHierarchy includeDirs d := by
  constructor
  · intro hmem
    have h1 := mem_walkList_size d d hmem
    omega
  · intro eH iD p hmem
    rw [TreeDir.getAllTreeFiles] at hmem
    cases eH with
    | true =>
      rw [if_pos rfl] at hmem
      rcases mem_gatfFold_size iD (TreeEntry.children d) [] (p, d) hmem with h1 | h2
      · exact absurd h1 (List.not_mem_nil _)
      · obtain ⟨c, hc, hle⟩ := h2
        cases d with
        | file h2 p2 st2 e2 =>
          rw [TreeEntry.children_file] at hc
          exact absurd hc (List.not_mem_nil c)
        | dir h2 p2 st2 cs2 =>
          rw [TreeEntry.children_dir] at hc
          have h3 := TreeEntry.size_lt_of_mem_children h2 p2 st2 cs2 c hc
          simp only [] at hle
          omega
    | false =>
      rw [if_neg (by simp)] at hmem
      rcases mem_shallowFold _ (TreeEntry.children d) [] (p, d) hmem with h1 | h2
      · exact absurd h1 (List.not_mem_nil _)
      · obtain ⟨o, ho, heq⟩ := h2
        cases d with
        | file h2 p2 st2 e2 =>
          rw [TreeEntry.children_file] at ho
          exact absurd ho (List.not_mem_nil o)
        | dir h2 p2 st2 cs2 =>
          rw [TreeEntry.children_dir] at ho
          have h3 := TreeEntry.size_lt_of_mem_children h2 p2 st2 cs2 o ho
          simp only [] at heq
          rw [← heq] at h3
          omega

/-- C7 (amended): merge re-establishes the derived-cache invariant at every
directory it rebuilds — in particular the returned root always satisfies
`hash = digest(children hashes in order)` and `stats.size = sum of children
sizes`; but `remove` filters children without recomputing either cache, so
it does not preserve the invariant (see the counterexample). -/
theorem merge_root_invariant (sh sp : String) (sst : StatsSubset) (scs : List TreeEntry)
    (th tp : String) (tst : StatsSubset) (tcs : List TreeEntry) :
    TreeEntry.hash (TreeDir.merge (.dir sh sp sst scs) (.dir th tp tst tcs)) =
      digestStr ((TreeEntry.children
        (TreeDir.merge (.dir sh sp sst scs) (.dir th tp tst tcs))).map TreeEntry.hash) ∧
    (TreeEntry.stats (TreeDir.merge (.dir sh sp sst scs) (.dir th tp tst tcs))).size =
      sumSizes (TreeEntry.children (TreeDir.merge (.dir sh sp sst scs) (.dir th tp tst tcs))) := by
  have hsize : TreeEntry.size (TreeEntry.dir sh sp sst scs) =
      (scs.map TreeEntry.size).sum + 1 := by
    rw [TreeEntry.size_dir, Nat.add_comm]
  rw [TreeDir.merge, TreeEntry.clone_dir, hsize, privateMerge_succ_dir]
  exact ⟨rfl, rfl⟩

/-- C7 counterexample: a directory satisfying the invariant whose child
`"y"` is removed by `TreeDir.remove` keeps its stale hash: afterwards the
hash no longer equals the digest of the (new) children hashes, and the
size no longer equals their sum. -/
theorem remove_breaks_invariant :
    TreeEntry.hash (TreeEntry.dir (digestStr ["h1", "h2"]) "" ⟨8, 0, 0⟩
        [.file "h1" "x" ⟨3, 0, 0⟩ "", .file "h2" "y" ⟨5, 0, 0⟩ ""]) =
      digestStr ((TreeEntry.children (TreeEntry.dir (digestStr ["h1", "h2"]) "" ⟨8, 0, 0⟩
        [.file "h1" "x" ⟨3, 0, 0⟩ "", .file "h2" "y" ⟨5, 0, 0⟩ ""])).map TreeEntry.hash) ∧
    TreeEntry.hash (TreeDir.remove (fun e => TreeEntry.path e = "y")
        (TreeEntry.dir (digestStr ["h1", "h2"]) "" ⟨8, 0, 0⟩
          [.file "h1" "x" ⟨3, 0, 0⟩ "", .file "h2" "y" ⟨5, 0, 0⟩ ""])) ≠
      digestStr ((TreeEntry.children (TreeDir.remove (fun e => TreeEntry.path e = "y")
        (TreeEntry.dir (digestStr ["h1", "h2"]) "" ⟨8, 0, 0⟩
          [.file "h1" "x" ⟨3, 0, 0⟩ "", .file "h2" "y" ⟨5, 0, 0⟩ ""]))).map TreeEntry.hash) := by
  have hrem : TreeDir.remove (fun e => TreeEntry.path e = "y")
      (TreeEntry.dir (digestStr ["h1", "h2"]) "" ⟨8, 0, 0⟩
        [.file "h1" "x" ⟨3, 0, 0⟩ "", .file "h2" "y" ⟨5, 0, 0⟩ ""]) =
      TreeEntry.dir (digestStr ["h1", "h2"]) "" ⟨8, 0, 0⟩ [.file "h1" "x" ⟨3, 0, 0⟩ ""] := by
    rw [TreeDir.remove_dir]
    rw [show List.filter (fun c => !(fun e => TreeEntry.path e = "y") c)
        [TreeEntry.file "h1" "x" ⟨3, 0, 0⟩ "", TreeEntry.file "h2" "y" ⟨5, 0, 0⟩ ""] =
        [TreeEntry.file "h1" "x" ⟨3, 0, 0⟩ ""] from by
      rw [List.filter_cons_of_pos (by decide), List.filter_cons_of_neg (by decide),
        List.filter_nil]]
    rw [List.map_cons, List.map_nil, TreeDir.remove_file]
  constructor
  · rfl
  · rw [hrem]
    decide

/-- C2 (amended): `clone(T)` equals `T` with every directory hash reset to
the empty string (the `TreeDir` constructor initializes `hash` to `''` and
`clone` never copies it); path, stats and children count are preserved at
every node and file nodes are copied unchanged. In this value model a
clone shares no mutable state with its source, so mutating the clone
cannot affect `T`. -/
theorem clone_resets_only_dir_hashes (e : TreeEntry) :
    TreeEntry.clone e = eraseDirHashes e ∧
    TreeEntry.path (TreeEntry.clone e) = TreeEntry.path e ∧
    TreeEntry.stats (TreeEntry.clone e) = TreeEntry.stats e ∧
    (TreeEntry.children (TreeEntry.clone e)).length = (TreeEntry.children e).length := by
  refine ⟨?_, TreeEntry.clone_path e, ?_, ?_⟩
  · induction e using TreeEntry.induction_on with
    | hfile h p st ex =>
      rw [TreeEntry.clone_file, eraseDirHashes_file]
    | hdir h p st cs ih =>
      rw [TreeEntry.clone_dir, eraseDirHashes_dir]
      refine congrArg _ (List.map_congr_left ?_)
      intro c hc
      exact ih c hc
  · cases e with
    | file h p st ex =>
      rw [TreeEntry.clone_file]
    | dir h p st cs =>
      rw [TreeEntry.clone_dir, TreeEntry.stats_dir, TreeEntry.stats_dir]
  · cases e with
    | file h p st ex =>
      rw [TreeEntry.clone_file]
    | dir h p st cs =>
      rw [TreeEntry.clone_dir, TreeEntry.children_dir, TreeEntry.children_dir,
        List.length_map]

/-- C2 counterexample: cloning a directory whose hash is `"abc"` yields a
directory whose hash is the empty string — the clone is not equal to its
source in `hash` at the root node. -/
theorem clone_drops_dir_hash :
    TreeEntry.hash (TreeEntry.clone (TreeEntry.dir "abc" "" ⟨0, 0, 0⟩ [])) = "" ∧
    TreeEntry.hash (TreeEntry.dir "abc" "" ⟨0, 0, 0⟩ []) = "abc" ∧
    ("" : String) ≠ "abc" := by
  refine ⟨?_, rfl, by decide⟩
  rw [TreeEntry.clone_dir]
  rfl

/-- C1 (amended): `TreeDir.merge` never mutates `target` (only its clone is
merged into), but it does write into `source`: `privateMerge` recomputes
the derived caches (`hash`, `stats.size`) of `source`'s directory
descendants in place. The post-call source is the original up to those
cache fields: same shape, paths, ctime/mtime and identical file nodes. -/
theorem merge_source_effect_sameShape (source target : TreeEntry) :
    SameShape (TreeDir.mergeSourceAfter source target) source :=
  privateMerge_fst_sameShape (TreeEntry.size source) source (TreeEntry.clone target)

/-- C1 counterexample: merging mutates `source` — after merging a source
whose subdirectory `"a"` has an unset hash (`""`) with an empty target
directory, that subdirectory of `source` holds the recomputed digest, no
longer its original hash. -/
theorem merge_mutates_source_caches :
    (childByPath (TreeEntry.children (TreeDir.mergeSourceAfter
        (TreeEntry.dir "R" "" ⟨0, 0, 0⟩ [TreeEntry.dir "" "a" ⟨999, 0, 0⟩
          [TreeEntry.file "h" "a/x" ⟨5, 0, 0⟩ ""]])
        (TreeEntry.dir "" "" ⟨0, 0, 0⟩ []))) "a").map TreeEntry.hash =
      some (digestStr ["h"]) ∧
    (childByPath (TreeEntry.children (TreeEntry.dir "R" "" ⟨0, 0, 0⟩
        [TreeEntry.dir "" "a" ⟨999, 0, 0⟩ [TreeEntry.file "h" "a/x" ⟨5, 0, 0⟩ ""]]))
        "a").map TreeEntry.hash = some "" ∧
    digestStr ["h"] ≠ "" := by
  have hsz : TreeEntry.size (TreeEntry.dir "R" "" ⟨0, 0, 0⟩ [TreeEntry.dir "" "a" ⟨999, 0, 0⟩
      [TreeEntry.file "h" "a/x" ⟨5, 0, 0⟩ ""]]) = 3 := by
    rw [TreeEntry.size_dir, List.map_cons, List.map_nil, TreeEntry.size_dir, List.map_cons,
      List.map_nil, TreeEntry.size_file, List.sum_cons, List.sum_nil, List.sum_cons,
      List.sum_nil]
    rfl
  have hcl : TreeEntry.clone (TreeEntry.dir "" "" ⟨0, 0, 0⟩ []) =
      TreeEntry.dir "" "" ⟨0, 0, 0⟩ [] := by
    rw [TreeEntry.clone_dir, List.map_nil]
  rw [TreeDir.mergeSourceAfter, hsz, hcl]
  refine ⟨?_, rfl, by decide⟩
  rfl

/-- C3 (amended): wherever both sides of the merge are directories with
distinct sibling paths, the result's children are the path-keyed union
with target precedence: a path only in `source` keeps source's
(cache-recomputed) child; a path only in `target` keeps target's cloned
and cache-recomputed child; a path in both holds the recursive
`privateMerge` of the pair — in particular, whenever target's entry is a
file (e.g. a file-file collision) the result holds target's file
unchanged, and a path in neither side is absent. A *descendant* path
present only in `source` can still be absent from the result when one of
its ancestors collides with a non-directory in `target` (see the
counterexample), so the union reading holds level by level, not for
arbitrary deep paths. -/
theorem merge_level_union (sh sp : String) (sst : StatsSubset) (scs : List TreeEntry)
    (th tp : String) (tst : StatsSubset) (tcs : List TreeEntry)
    (hndS : (scs.map TreeEntry.path).Nodup) (hndT : (tcs.map TreeEntry.path).Nodup)
    (p : String) :
    (∀ sc, childByPath scs p = some sc → childByPath tcs p = none →
      childByPath (TreeEntry.children
          (TreeDir.merge (.dir sh sp sst scs) (.dir th tp tst tcs))) p =
        some (generateSizeAndCaches sc)) ∧
    (∀ tc, childByPath scs p = none → childByPath tcs p = some tc →
      childByPath (TreeEntry.children
          (TreeDir.merge (.dir sh sp sst scs) (.dir th tp tst tcs))) p =
        some (generateSizeAndCaches (TreeEntry.clone tc))) ∧
    (∀ sc tc, childByPath scs p = some sc → childByPath tcs p = some tc →
      childByPath (TreeEntry.children
          (TreeDir.merge (.dir sh sp sst scs) (.dir th tp tst tcs))) p =
        some ((privateMerge ((scs.map TreeEntry.size).sum)
          (generateSizeAndCaches sc) (generateSizeAndCaches (TreeEntry.clone tc))).2)) ∧
    (∀ sc h2 p2 st2 e2, childByPath scs p = some sc →
      childByPath tcs p = some (TreeEntry.file h2 p2 st2 e2) →
      childByPath (TreeEntry.children
          (TreeDir.merge (.dir sh sp sst scs) (.dir th tp tst tcs))) p =
        some (TreeEntry.file h2 p2 st2 e2)) ∧
    (childByPath scs p = none → childByPath tcs p = none →
      childByPath (TreeEntry.children
          (TreeDir.merge (.dir sh sp sst scs) (.dir th tp tst tcs))) p = none) := by
  have hmain := mergeResult_childByPath sh sp sst scs th tp tst tcs hndS hndT p
  refine ⟨?_, ?_, ?_, ?_, ?_⟩
  · intro sc hsc htc
    rw [hmain, hsc, htc]
  · intro tc hsc htc
    rw [hmain, hsc, htc]
  · intro sc tc hsc htc
    rw [hmain, hsc, htc]
  · intro sc h2 p2 st2 e2 hsc htc
    rw [hmain, hsc, htc]
    show some ((privateMerge ((scs.map TreeEntry.size).sum)
      (generateSizeAndCaches sc)
      (generateSizeAndCaches (TreeEntry.clone (TreeEntry.file h2 p2 st2 e2)))).2) = _
    rw [TreeEntry.clone_file]
    rw [show generateSizeAndCaches (TreeEntry.file h2 p2 st2 e2) =
      TreeEntry.file h2 p2 st2 e2 from rfl]
    rw [privateMerge_not_dirs ((scs.map TreeEntry.size).sum) (generateSizeAndCaches sc)
      (TreeEntry.file h2 p2 st2 e2) (Or.inr rfl)]
  · intro hsc htc
    rw [hmain, hsc, htc]

/-- C3 witness: source holds file `x` with hash `H1`, target holds file
`x` with hash `H2`: the merged tree holds target's file (hash `H2`) under
path `x`. -/
theorem merge_level_union_witness :
    childByPath (TreeEntry.children (TreeDir.merge
        (TreeEntry.dir "" "" ⟨5, 0, 0⟩ [TreeEntry.file "H1" "x" ⟨5, 0, 0⟩ ""])
        (TreeEntry.dir "" "" ⟨7, 0, 0⟩ [TreeEntry.file "H2" "x" ⟨7, 0, 0⟩ ""]))) "x" =
      some (TreeEntry.file "H2" "x" ⟨7, 0, 0⟩ "") := by
  refine (merge_level_union "" "" ⟨5, 0, 0⟩ [TreeEntry.file "H1" "x" ⟨5, 0, 0⟩ ""]
    "" "" ⟨7, 0, 0⟩ [TreeEntry.file "H2" "x" ⟨7, 0, 0⟩ ""]
    (by simp) (by simp) "x").2.2.2.1
    (TreeEntry.file "H1" "x" ⟨5, 0, 0⟩ "") "H2" "x" ⟨7, 0, 0⟩ "" rfl rfl

/-- C3 counterexample: the path `"a/x"` exists only in `source` (target has
no entry at `"a/x"`), yet it is absent from `merge(source, target)`:
target holds a *file* at the ancestor path `"a"`, which wins the collision
and replaces source's whole `"a"` subtree. -/
theorem merge_drops_source_only_descendant :
    TreeDir.find (TreeEntry.dir "R" "" ⟨0, 0, 0⟩ [TreeEntry.dir "" "a" ⟨5, 0, 0⟩
        [TreeEntry.file "h1" "a/x" ⟨5, 0, 0⟩ ""]]) "a/x" =
      some (TreeEntry.file "h1" "a/x" ⟨5, 0, 0⟩ "") ∧
    TreeDir.find (TreeEntry.dir "" "" ⟨7, 0, 0⟩ [TreeEntry.file "h2" "a" ⟨7, 0, 0⟩ ""])
      "a/x" = none ∧
    TreeDir.find (TreeDir.merge
        (TreeEntry.dir "R" "" ⟨0, 0, 0⟩ [TreeEntry.dir "" "a" ⟨5, 0, 0⟩
          [TreeEntry.file "h1" "a/x" ⟨5, 0, 0⟩ ""]])
        (TreeEntry.dir "" "" ⟨7, 0, 0⟩ [TreeEntry.file "h2" "a" ⟨7, 0, 0⟩ ""])) "a/x" =
      none := by
  have hwsrc : TreeDir.walkList (TreeEntry.dir "R" "" ⟨0, 0, 0⟩ [TreeEntry.dir "" "a" ⟨5, 0, 0⟩
      [TreeEntry.file "h1" "a/x" ⟨5, 0, 0⟩ ""]]) =
      [TreeEntry.dir "" "a" ⟨5, 0, 0⟩ [TreeEntry.file "h1" "a/x" ⟨5, 0, 0⟩ ""],
       TreeEntry.file "h1" "a/x" ⟨5, 0, 0⟩ ""] := by
    rw [TreeDir.walkList_dir]
    rw [List.map_cons, List.map_nil, TreeDir.walkList_dir, List.map_cons, List.map_nil,
      TreeDir.walkList_file]
    rfl
  have hwtgt : TreeDir.walkList (TreeEntry.dir "" "" ⟨7, 0, 0⟩
      [TreeEntry.file "h2" "a" ⟨7, 0, 0⟩ ""]) = [TreeEntry.file "h2" "a" ⟨7, 0, 0⟩ ""] := by
    rw [TreeDir.walkList_dir, List.map_cons, List.map_nil, TreeDir.walkList_file]
    rfl
  have hsz : TreeEntry.size (TreeEntry.dir "R" "" ⟨0, 0, 0⟩ [TreeEntry.dir "" "a" ⟨5, 0, 0⟩
      [TreeEntry.file "h1" "a/x" ⟨5, 0, 0⟩ ""]]) = 3 := by
    rw [TreeEntry.size_dir, List.map_cons, List.map_nil, TreeEntry.size_dir, List.map_cons,
      List.map_nil, TreeEntry.size_file, List.sum_cons, List.sum_nil, List.sum_cons,
      List.sum_nil]
    rfl
  have hcl : TreeEntry.clone (TreeEntry.dir "" "" ⟨7, 0, 0⟩
      [TreeEntry.file "h2" "a" ⟨7, 0, 0⟩ ""]) =
      TreeEntry.dir "" "" ⟨7, 0, 0⟩ [TreeEntry.file "h2" "a" ⟨7, 0, 0⟩ ""] := by
    rw [TreeEntry.clone_dir, List.map_cons, List.map_nil, TreeEntry.clone_file]
  have hmerge : TreeDir.merge
      (TreeEntry.dir "R" "" ⟨0, 0, 0⟩ [TreeEntry.dir "" "a" ⟨5, 0, 0⟩
        [TreeEntry.file "h1" "a/x" ⟨5, 0, 0⟩ ""]])
      (TreeEntry.dir "" "" ⟨7, 0, 0⟩ [TreeEntry.file "h2" "a" ⟨7, 0, 0⟩ ""]) =
      TreeEntry.dir (digestStr ["h2"]) "" ⟨7, 0, 0⟩ [TreeEntry.file "h2" "a" ⟨7, 0, 0⟩ ""] := by
    rw [TreeDir.merge, hsz, hcl]
    rfl
  have hwmerge : TreeDir.walkList (TreeEntry.dir (digestStr ["h2"]) "" ⟨7, 0, 0⟩
      [TreeEntry.file "h2" "a" ⟨7, 0, 0⟩ ""]) = [TreeEntry.file "h2" "a" ⟨7, 0, 0⟩ ""] := by
    rw [TreeDir.walkList_dir, List.map_cons, List.map_nil, TreeDir.walkList_file]
    rfl
  refine ⟨?_, ?_, ?_⟩
  · rw [TreeDir.find, if_neg (by decide), hwsrc]
    rfl
  · rw [TreeDir.find, if_neg (by decide), hwtgt]
    rfl
  · rw [hmerge, TreeDir.find, if_neg (by decide), hwmerge]
    rfl

/-- C4 (amended): merging a tree with itself returns a structurally equal
tree whose hashes equal the tree's own hashes *provided the tree is
sealed* — every directory's `hash`/`stats.size` already equal the derived
values and sibling paths are distinct — in which case `merge(T, T) = T`
exactly. For an unsealed tree the structure is still preserved but the
result carries the recomputed directory hashes, which differ from the
stale stored ones (see the counterexample). -/
theorem merge_self_identity (T : TreeEntry) (hwf : WellFormed T) :
    TreeDir.merge T T = T := by
  rw [TreeDir.merge]
  rw [privateMerge_self (TreeEntry.size T) T (TreeEntry.clone T) hwf (SameShape.clone T)
    (Nat.le_refl (TreeEntry.size T))]

/-- C4 witness: a sealed one-file tree merged with itself is returned
unchanged. -/
theorem merge_self_identity_witness :
    TreeDir.merge
      (TreeEntry.dir (digestStr ["h"]) "" ⟨5, 0, 0⟩ [TreeEntry.file "h" "a" ⟨5, 0, 0⟩ ""])
      (TreeEntry.dir (digestStr ["h"]) "" ⟨5, 0, 0⟩ [TreeEntry.file "h" "a" ⟨5, 0, 0⟩ ""]) =
      TreeEntry.dir (digestStr ["h"]) "" ⟨5, 0, 0⟩ [TreeEntry.file "h" "a" ⟨5, 0, 0⟩ ""] := by
  refine merge_self_identity
    (TreeEntry.dir (digestStr ["h"]) "" ⟨5, 0, 0⟩ [TreeEntry.file "h" "a" ⟨5, 0, 0⟩ ""]) ?_
  refine WellFormed.dir (digestStr ["h"]) "" ⟨5, 0, 0⟩
    [TreeEntry.file "h" "a" ⟨5, 0, 0⟩ ""] (by simp) rfl rfl ?_
  intro c hc
  rw [List.mem_singleton] at hc
  rw [hc]
  exact WellFormed.file "h" "a" ⟨5, 0, 0⟩ ""

/-- C4 counterexample: for an unsealed tree (root hash still `""` despite
having a child), `merge(T, T)` carries the recomputed root hash, which is
not `T`'s stored hash — the claim fails for general trees. -/
theorem merge_self_reseals_hashes :
    TreeEntry.hash (TreeDir.merge
        (TreeEntry.dir "" "" ⟨0, 0, 0⟩ [TreeEntry.file "h" "a" ⟨5, 0, 0⟩ ""])
        (TreeEntry.dir "" "" ⟨0, 0, 0⟩ [TreeEntry.file "h" "a" ⟨5, 0, 0⟩ ""])) =
      digestStr ["h"] ∧
    TreeEntry.hash (TreeEntry.dir "" "" ⟨0, 0, 0⟩ [TreeEntry.file "h" "a" ⟨5, 0, 0⟩ ""]) =
      "" ∧
    digestStr ["h"] ≠ "" := by
  have hsz : TreeEntry.size (TreeEntry.dir "" "" ⟨0, 0, 0⟩
      [TreeEntry.file "h" "a" ⟨5, 0, 0⟩ ""]) = 2 := by
    rw [TreeEntry.size_dir, List.map_cons, List.map_nil, TreeEntry.size_file, List.sum_cons,
      List.sum_nil]
    rfl
  have hcl : TreeEntry.clone (TreeEntry.dir "" "" ⟨0, 0, 0⟩
      [TreeEntry.file "h" "a" ⟨5, 0, 0⟩ ""]) =
      TreeEntry.dir "" "" ⟨0, 0, 0⟩ [TreeEntry.file "h" "a" ⟨5, 0, 0⟩ ""] := by
    rw [TreeEntry.clone_dir, List.map_cons, List.map_nil, TreeEntry.clone_file]
  refine ⟨?_, rfl, by decide⟩
  rw [TreeDir.merge, hsz, hcl]
  rfl

/-- C8 (amended): `find(path)` returns the root itself when `path` equals
the root's path; otherwise it walks the whole subtree, overwriting its
candidate on every match, and therefore returns the *last* entry in
depth-first pre-order whose path matches (`none` when no entry matches).
When the visited paths are distinct — the invariant case — the last match
is the only match, so it coincides with the first pre-order match. -/
theorem find_returns_last_match (d : TreeEntry) (q : String) :
    (TreeDir.find d q = if q = TreeEntry.path d then some d
      else match ((TreeDir.walkList d).filter (fun e => TreeEntry.path e = q)).getLast? with
        | some x => some x
        | none => none) ∧
    (((TreeDir.walkList d).map TreeEntry.path).Nodup → q ≠ TreeEntry.path d →
      TreeDir.find d q =
        ((TreeDir.walkList d).filter (fun e => TreeEntry.path e = q)).head?) := by
  constructor
  · rw [TreeDir.find]
    by_cases h : q = TreeEntry.path d
    · rw [if_pos h, if_pos h]
    · rw [if_neg h, if_neg h]
      exact foldl_lastMatch q (TreeDir.walkList d) none
  · intro hnd hne
    rw [TreeDir.find, if_neg hne, foldl_lastMatch, filter_path_singleton q _ hnd]
    cases ((TreeDir.walkList d).filter (fun e => TreeEntry.path e = q)).head? with
    | some x => rfl
    | none => rfl

/-- C8 witness: on a tree with distinct paths, `find "a"` returns the
first (and only) pre-order match. -/
theorem find_returns_last_match_witness :
    TreeDir.find (TreeEntry.dir "" "" ⟨0, 0, 0⟩ [TreeEntry.file "h1" "a" ⟨0, 0, 0⟩ ""]) "a" =
      some (TreeEntry.file "h1" "a" ⟨0, 0, 0⟩ "") := by
  have hw : TreeDir.walkList (TreeEntry.dir "" "" ⟨0, 0, 0⟩
      [TreeEntry.file "h1" "a" ⟨0, 0, 0⟩ ""]) = [TreeEntry.file "h1" "a" ⟨0, 0, 0⟩ ""] := by
    rw [TreeDir.walkList_dir, List.map_cons, List.map_nil, TreeDir.walkList_file]
    rfl
  have h := (find_returns_last_match (TreeEntry.dir "" "" ⟨0, 0, 0⟩
    [TreeEntry.file "h1" "a" ⟨0, 0, 0⟩ ""]) "a").2 (by
      rw [hw]
      simp) (by decide)
  rw [h, hw]
  rfl

/-- C8 counterexample: with two siblings sharing the path `"a"`, the first
pre-order match is the `"h1"` file, but `find` returns the later `"h2"`
file — `find` does not return the first match. -/
theorem find_not_first_match :
    (List.filter (fun e => TreeEntry.path e = "a")
        (TreeDir.walkList (TreeEntry.dir "" "" ⟨0, 0, 0⟩
          [TreeEntry.file "h1" "a" ⟨0, 0, 0⟩ "",
           TreeEntry.file "h2" "a" ⟨0, 0, 0⟩ ""]))).head? =
      some (TreeEntry.file "h1" "a" ⟨0, 0, 0⟩ "") ∧
    TreeDir.find (TreeEntry.dir "" "" ⟨0, 0, 0⟩
        [TreeEntry.file "h1" "a" ⟨0, 0, 0⟩ "", TreeEntry.file "h2" "a" ⟨0, 0, 0⟩ ""]) "a" =
      some (TreeEntry.file "h2" "a" ⟨0, 0, 0⟩ "") ∧
    TreeEntry.hash (TreeEntry.file "h2" "a" ⟨0, 0, 0⟩ "") ≠
      TreeEntry.hash (TreeEntry.file "h1" "a" ⟨0, 0, 0⟩ "") := by
  have hw : TreeDir.walkList (TreeEntry.dir "" "" ⟨0, 0, 0⟩
      [TreeEntry.file "h1" "a" ⟨0, 0, 0⟩ "", TreeEntry.file "h2" "a" ⟨0, 0, 0⟩ ""]) =
      [TreeEntry.file "h1" "a" ⟨0, 0, 0⟩ "", TreeEntry.file "h2" "a" ⟨0, 0, 0⟩ ""] := by
    rw [TreeDir.walkList_dir, List.map_cons, List.map_cons, List.map_nil,
      TreeDir.walkList_file, TreeDir.walkList_file]
    rfl
  refine ⟨?_, ?_, by decide⟩
  · rw [hw]
    rfl
  · rw [TreeDir.find, if_neg (by decide), hw]
    rfl
